import Mathlib

/-!
# Matrix operations of `src/main.cpp`

A shallow embedding of the matrix operation library of the lab program
(`add`, `multiply`, `diagonalSums`, `swapRows`, `swapCols`, `updateCell`)
together with theorems about it.

Modelling conventions.

* `Matrix` is `vector<vector<int>>`: a list of rows, each a list of integers.
* The arithmetic of the source is that of `int`, taken as 32-bit two's
  complement with wraparound: `add32`, `multiply32` and `diagonalSums32` are
  the three arithmetic functions with every product and every sum reduced by
  `wrap32`, and they are the behaviour of the source on all inputs. `add`,
  `multiply` and `diagonalSums` are the same loops over mathematical integers
  (`Int`); they agree with the source whenever no value leaves the range of
  `int`, and they have the same shape and the same cell accesses on all inputs.
* `(int)M.size()` is the number of rows as a natural number (the size of a
  vector that fits in memory is within the range of `int`); the index
  expression `N - 1 - i` of `diagonalSums` is computed in `Int` and checked by
  `idx?` before it is used.
* Every element access `M[i][j]` of the source is a fallible read or write
  (`Matrix.at?`, `Matrix.setCell`): an index outside the vector makes the
  whole operation return `none`.
* Each `for (int i = 0; i < N; ++i)` loop is a monadic left fold over
  `List.range N`, the loop body being the step function and the mutated
  variables the accumulator.
* A function that mutates its `Matrix&` argument and returns `bool` returns
  the pair of the flag and the matrix after the call.
-/

namespace Lab9

/-- The type `Matrix` of the source: `vector<vector<int>>`. -/
abbrev Matrix := List (List Int)

/-- A matrix with `N` rows, each of length `N`. -/
def IsSquare (N : Nat) (M : Matrix) : Prop :=
  M.length = N ∧ ∀ row ∈ M, row.length = N

instance (N : Nat) (M : Matrix) : Decidable (IsSquare N M) := by
  unfold IsSquare
  exact inferInstance

/-- Read access `M[i][j]`; `none` when `i` or `j` is outside the vector. -/
def Matrix.at? (M : Matrix) (i j : Nat) : Option Int :=
  match M[i]? with
  | none => none
  | some row => row[j]?

/-- Write access `M[i][j] = v`; `none` when `i` or `j` is outside the vector. -/
def Matrix.setCell (M : Matrix) (i j : Nat) (v : Int) : Option Matrix :=
  match M[i]? with
  | none => none
  | some row => if j < row.length then some (M.set i (row.set j v)) else none

/-- An `int` used as a vector index: it must not be negative. -/
def idx? (z : Int) : Option Nat :=
  if 0 ≤ z then some z.toNat else none

/-- The constructor call `Matrix C(N, vector<int>(N, 0))`. -/
def zeros (N : Nat) : Matrix :=
  List.replicate N (List.replicate N 0)

/-- The function `add` of the source (lines 61-70). -/
def add (A B : Matrix) : Option Matrix :=
  let N := A.length
  (List.range N).foldlM (fun C i =>
    (List.range N).foldlM (fun C j => do
      let a ← A.at? i j
      let b ← B.at? i j
      C.setCell i j (a + b)) C) (zeros N)

/-- The body `C[i][j] += A[i][k] * B[k][j]` of the innermost loop of `multiply`. -/
def mulStep (A B : Matrix) (i k : Nat) (C : Matrix) (j : Nat) : Option Matrix := do
  let a ← A.at? i k
  let b ← B.at? k j
  let c ← C.at? i j
  C.setCell i j (c + a * b)

/-- The function `multiply` of the source (lines 73-84): loops `i`, `k`, `j`. -/
def multiply (A B : Matrix) : Option Matrix :=
  let N := A.length
  (List.range N).foldlM (fun C i =>
    (List.range N).foldlM (fun C k =>
      (List.range N).foldlM (mulStep A B i k) C) C) (zeros N)

/-- The loop body of `diagonalSums`; the accumulator is `(mainSum, secondary)`. -/
def diagStep (M : Matrix) (N : Nat) (acc : Int × Int) (i : Nat) : Option (Int × Int) := do
  let d ← M.at? i i
  let c ← idx? ((N : Int) - 1 - (i : Int))
  let e ← M.at? i c
  some (acc.1 + d, acc.2 + e)

/-- The function `diagonalSums` of the source (lines 87-96). -/
def diagonalSums (M : Matrix) : Option (Int × Int) :=
  let N := M.length
  (List.range N).foldlM (diagStep M N) (0, 0)

/-- The function `swapRows` of the source (lines 100-106). -/
def swapRows (M : Matrix) (r1 r2 : Int) : Option (Bool × Matrix) :=
  let N : Int := (M.length : Int)
  if r1 < 0 ∨ r2 < 0 ∨ r1 ≥ N ∨ r2 ≥ N then
    some (false, M)
  else do
    let a ← M[r1.toNat]?
    let b ← M[r2.toNat]?
    some (true, (M.set r1.toNat b).set r2.toNat a)

/-- The loop body `swap(M[i][c1], M[i][c2])` of `swapCols`. -/
def swapColsStep (c1 c2 : Nat) (M : Matrix) (i : Nat) : Option Matrix := do
  let a ← M.at? i c1
  let b ← M.at? i c2
  let M1 ← M.setCell i c1 b
  M1.setCell i c2 a

/-- The function `swapCols` of the source (lines 110-118). -/
def swapCols (M : Matrix) (c1 c2 : Int) : Option (Bool × Matrix) :=
  let N : Int := (M.length : Int)
  if c1 < 0 ∨ c2 < 0 ∨ c1 ≥ N ∨ c2 ≥ N then
    some (false, M)
  else do
    let M1 ← (List.range M.length).foldlM (swapColsStep c1.toNat c2.toNat) M
    some (true, M1)

/-- The function `updateCell` of the source (lines 122-128). -/
def updateCell (M : Matrix) (r c val : Int) : Option (Bool × Matrix) :=
  let N : Int := (M.length : Int)
  if r < 0 ∨ c < 0 ∨ r ≥ N ∨ c ≥ N then
    some (false, M)
  else do
    let M1 ← M.setCell r.toNat c.toNat val
    some (true, M1)

/-- The value of `M[i][j]` as an integer: the cell read by `Matrix.at?`
(`0` when the access is outside the matrix). -/
def Matrix.entry (M : Matrix) (i j : Nat) : Int :=
  (M.at? i j).getD 0

/-- The sum over `k` in `[0, n)` of `A[i][k] * B[k][j]`. -/
def dotUpTo (A B : Matrix) (n i j : Nat) : Int :=
  ((List.range n).map (fun k => A.entry i k * B.entry k j)).sum

/-- The product matrix written entry by entry, as the specification states it:
`C[i][j]` is the sum over `k` in `[0, N)` of `A[i][k] * B[k][j]`. -/
def multiplyDirect (N : Nat) (A B : Matrix) : Matrix :=
  (List.range N).map (fun i => (List.range N).map (fun j => dotUpTo A B N i j))

/-- The matrix `C` is `N x N` and its cell `(a, b)` holds `F a b`. -/
def Holds (N : Nat) (C : Matrix) (F : Nat → Nat → Int) : Prop :=
  IsSquare N C ∧ ∀ a b, a < N → b < N → C.at? a b = some (F a b)

/-- The cells of a matrix with cells `F` after its columns `c1` and `c2` are exchanged. -/
def swappedCols (F : Nat → Nat → Int) (c1 c2 : Nat) (a b : Nat) : Int :=
  if b = c1 then F a c2 else if b = c2 then F a c1 else F a b

/-- The `N x N` identity matrix: `1` on the main diagonal, `0` elsewhere. -/
def identity (N : Nat) : Matrix :=
  (List.range N).map (fun i => (List.range N).map (fun j => if i = j then 1 else 0))

/-- The value an `int` computation yields when `int` is 32-bit two's complement with
wraparound: the representative of `z` modulo `2^32` in `[-2^31, 2^31)`. -/
def wrap32 (z : Int) : Int :=
  (z + 2147483648) % 4294967296 - 2147483648

/-- The body `C[i][j] += A[i][k] * B[k][j]` with 32-bit wraparound arithmetic: the
product wraps, then the sum wraps. -/
def mulStep32 (A B : Matrix) (i k : Nat) (C : Matrix) (j : Nat) : Option Matrix := do
  let a ← A.at? i k
  let b ← B.at? k j
  let c ← C.at? i j
  C.setCell i j (wrap32 (c + wrap32 (a * b)))

/-- The function `multiply` of the source (lines 73-84) with `int` as 32-bit two's
complement with wraparound. -/
def multiply32 (A B : Matrix) : Option Matrix :=
  let N := A.length
  (List.range N).foldlM (fun C i =>
    (List.range N).foldlM (fun C k =>
      (List.range N).foldlM (mulStep32 A B i k) C) C) (zeros N)

/-- The values a 32-bit two's complement `int` can hold: `[-2^31, 2^31)`. -/
def InInt32 (z : Int) : Prop :=
  -2147483648 ≤ z ∧ z < 2147483648

instance (z : Int) : Decidable (InInt32 z) := by
  unfold InInt32
  exact inferInstance

/-- Every cell of the matrix is a value of a 32-bit `int`. -/
def IsInt32Matrix (M : Matrix) : Prop :=
  ∀ row ∈ M, ∀ x ∈ row, InInt32 x

instance (M : Matrix) : Decidable (IsInt32Matrix M) := by
  unfold IsInt32Matrix
  exact inferInstance

/-- The function `add` of the source (lines 61-70) with `int` as 32-bit two's
complement with wraparound: the sum `A[i][j] + B[i][j]` wraps. -/
def add32 (A B : Matrix) : Option Matrix :=
  let N := A.length
  (List.range N).foldlM (fun C i =>
    (List.range N).foldlM (fun C j => do
      let a ← A.at? i j
      let b ← B.at? i j
      C.setCell i j (wrap32 (a + b))) C) (zeros N)

/-- The loop body of `diagonalSums` with `int` as 32-bit two's complement with
wraparound: both `+=` wrap. -/
def diagStep32 (M : Matrix) (N : Nat) (acc : Int × Int) (i : Nat) : Option (Int × Int) := do
  let d ← M.at? i i
  let c ← idx? ((N : Int) - 1 - (i : Int))
  let e ← M.at? i c
  some (wrap32 (acc.1 + d), wrap32 (acc.2 + e))

/-- The function `diagonalSums` of the source (lines 87-96) with `int` as 32-bit two's
complement with wraparound. -/
def diagonalSums32 (M : Matrix) : Option (Int × Int) :=
  let N := M.length
  (List.range N).foldlM (diagStep32 M N) (0, 0)

/-- The sum over `k` in `[0, n)` of `A[i][k] * B[k][j]` computed for one cell on its
own in 32-bit `int` arithmetic: each product and each partial sum wraps. -/
def dot32 (A B : Matrix) (n i j : Nat) : Int :=
  (List.range n).foldl (fun acc k => wrap32 (acc + wrap32 (A.entry i k * B.entry k j))) 0

/-- The product matrix written entry by entry, as the specification states it, in
32-bit `int` arithmetic: `C[i][j]` is the sum over `k` of `A[i][k] * B[k][j]`. -/
def multiplyDirect32 (N : Nat) (A B : Matrix) : Matrix :=
  (List.range N).map (fun i => (List.range N).map (fun j => dot32 A B N i j))

/-! ## Loops -/

theorem foldlM_range_inv {σ : Type} (step : σ → Nat → Option σ) (P : Nat → σ → Prop)
    (n : Nat) (s0 : σ) (h0 : P 0 s0)
    (hstep : ∀ k s, k < n → P k s → ∃ t, step s k = some t ∧ P (k + 1) t) :
    ∃ t, (List.range n).foldlM step s0 = some t ∧ P n t := by
  induction n with
  | zero => exact ⟨s0, by simp, h0⟩
  | succ m ih =>
    obtain ⟨t, ht, hP⟩ := ih (fun k s hk hs => hstep k s (Nat.lt_succ_of_lt hk) hs)
    obtain ⟨u, hu, hQ⟩ := hstep m t (Nat.lt_succ_self m) hP
    refine ⟨u, ?_, hQ⟩
    rw [List.range_succ, List.foldlM_append, ht]
    simp [hu]

/-! ## Cell access -/

theorem at?_eq_some_entry {M : Matrix} {i j : Nat} {v : Int} (h : M.at? i j = some v) :
    M.entry i j = v := by
  simp [Matrix.entry, h]

theorem at?_of_square {N : Nat} {M : Matrix} (hM : IsSquare N M) {i j : Nat}
    (hi : i < N) (hj : j < N) : M.at? i j = some (M.entry i j) := by
  obtain ⟨hlen, hrows⟩ := hM
  have hi2 : i < M.length := by omega
  have hrow : (M[i]).length = N := hrows _ (List.getElem_mem hi2)
  have hj2 : j < (M[i]).length := by omega
  have h : M.at? i j = some ((M[i])[j]) := by
    simp [Matrix.at?, List.getElem?_eq_getElem hi2, List.getElem?_eq_getElem hj2]
  rw [h, at?_eq_some_entry h]

theorem setCell_at? {M M1 : Matrix} {i j : Nat} {v : Int} (h : M.setCell i j v = some M1)
    (a b : Nat) : M1.at? a b = if a = i ∧ b = j then some v else M.at? a b := by
  unfold Matrix.setCell at h
  cases hrow : M[i]? with
  | none => simp [hrow] at h
  | some row =>
    simp only [hrow] at h
    split at h
    · rename_i hj
      injection h with h
      subst h
      have hi : i < M.length := by
        by_contra hc
        rw [List.getElem?_eq_none (by omega)] at hrow
        cases hrow
      unfold Matrix.at?
      by_cases hai : a = i
      · subst hai
        simp only [List.getElem?_set_self hi, true_and]
        by_cases hbj : b = j
        · subst hbj
          simp [List.getElem?_set_self hj]
        · simp [hbj, hrow, List.getElem?_set_ne (Ne.symm hbj)]
      · simp [hai, List.getElem?_set_ne (Ne.symm hai)]
    · cases h

theorem setCell_square {N : Nat} {M M1 : Matrix} {i j : Nat} {v : Int}
    (h : M.setCell i j v = some M1) (hM : IsSquare N M) : IsSquare N M1 := by
  unfold Matrix.setCell at h
  cases hrow : M[i]? with
  | none => simp [hrow] at h
  | some row =>
    simp only [hrow] at h
    split at h
    · injection h with h
      subst h
      obtain ⟨hlen, hrows⟩ := hM
      refine ⟨by simpa using hlen, ?_⟩
      intro r hr
      rcases List.mem_or_eq_of_mem_set hr with h1 | h1
      · exact hrows r h1
      · subst h1
        rw [List.length_set]
        exact hrows row (List.getElem?_mem hrow)
    · cases h

theorem setCell_some {N : Nat} {M : Matrix} (hM : IsSquare N M) {i j : Nat}
    (hi : i < N) (hj : j < N) (v : Int) : ∃ M1, M.setCell i j v = some M1 := by
  obtain ⟨hlen, hrows⟩ := hM
  have hi2 : i < M.length := by omega
  have hrow : (M[i]).length = N := hrows _ (List.getElem_mem hi2)
  refine ⟨M.set i ((M[i]).set j v), ?_⟩
  simp [Matrix.setCell, List.getElem?_eq_getElem hi2, hrow, hj]

theorem square_ext {N : Nat} {A B : Matrix} (hA : IsSquare N A) (hB : IsSquare N B)
    (h : ∀ i j, i < N → j < N → A.at? i j = B.at? i j) : A = B := by
  obtain ⟨hlenA, hrowsA⟩ := hA
  obtain ⟨hlenB, hrowsB⟩ := hB
  apply List.ext_getElem (by omega)
  intro i hiA hiB
  have hrA : (A[i]).length = N := hrowsA _ (List.getElem_mem hiA)
  have hrB : (B[i]).length = N := hrowsB _ (List.getElem_mem hiB)
  apply List.ext_getElem (by omega)
  intro j hjA hjB
  have hij := h i j (by omega) (by omega)
  simp only [Matrix.at?, List.getElem?_eq_getElem hiA, List.getElem?_eq_getElem hiB,
    List.getElem?_eq_getElem hjA, List.getElem?_eq_getElem hjB] at hij
  exact Option.some.inj hij

/-! ## Matrices described by their cells -/

theorem Holds.congr {N : Nat} {C : Matrix} {F G : Nat → Nat → Int} (h : Holds N C F)
    (hFG : ∀ a b, a < N → b < N → F a b = G a b) : Holds N C G :=
  ⟨h.1, fun a b ha hb => by rw [h.2 a b ha hb, hFG a b ha hb]⟩

theorem Holds.entry_eq {N : Nat} {C : Matrix} {F : Nat → Nat → Int} (h : Holds N C F)
    {a b : Nat} (ha : a < N) (hb : b < N) : C.entry a b = F a b :=
  at?_eq_some_entry (h.2 a b ha hb)

theorem Holds.of_square {N : Nat} {C : Matrix} (h : IsSquare N C) : Holds N C C.entry :=
  ⟨h, fun _ _ ha hb => at?_of_square h ha hb⟩

theorem Holds.unique {N : Nat} {C D : Matrix} {F : Nat → Nat → Int} (hC : Holds N C F)
    (hD : Holds N D F) : C = D :=
  square_ext hC.1 hD.1 (fun a b ha hb => by rw [hC.2 a b ha hb, hD.2 a b ha hb])

theorem Holds.setCell {N : Nat} {C : Matrix} {F : Nat → Nat → Int} (h : Holds N C F)
    {i j : Nat} (hi : i < N) (hj : j < N) (v : Int) :
    ∃ C1, C.setCell i j v = some C1 ∧
      Holds N C1 (fun a b => if a = i ∧ b = j then v else F a b) := by
  obtain ⟨C1, hC1⟩ := setCell_some h.1 hi hj v
  refine ⟨C1, hC1, setCell_square hC1 h.1, ?_⟩
  intro a b ha hb
  rw [setCell_at? hC1 a b]
  by_cases hab : a = i ∧ b = j
  · simp [hab]
  · simp only [hab, if_false]
    exact h.2 a b ha hb

theorem zeros_holds (N : Nat) : Holds N (zeros N) (fun _ _ => 0) := by
  refine ⟨⟨by simp [zeros], ?_⟩, ?_⟩
  · intro row hrow
    rw [zeros, List.mem_replicate] at hrow
    rw [hrow.2, List.length_replicate]
  · intro a b ha hb
    simp [Matrix.at?, zeros, List.getElem?_replicate, ha, hb]

theorem multiplyDirect_holds (N : Nat) (A B : Matrix) :
    Holds N (multiplyDirect N A B) (dotUpTo A B N) := by
  refine ⟨⟨by simp [multiplyDirect], ?_⟩, ?_⟩
  · intro row hrow
    simp only [multiplyDirect, List.mem_map] at hrow
    obtain ⟨i, _, rfl⟩ := hrow
    simp
  · intro a b ha hb
    simp [Matrix.at?, multiplyDirect, List.getElem?_map, List.getElem?_range, ha, hb]

theorem dotUpTo_succ (A B : Matrix) (n i j : Nat) :
    dotUpTo A B (n + 1) i j = dotUpTo A B n i j + A.entry i n * B.entry n j := by
  simp [dotUpTo, List.range_succ]

/-! ## The loops of `multiply` -/

theorem mul_loop_j {N : Nat} {A B C : Matrix} {F : Nat → Nat → Int}
    (hA : IsSquare N A) (hB : IsSquare N B) (hC : Holds N C F)
    {i k : Nat} (hi : i < N) (hk : k < N) :
    ∃ C1, (List.range N).foldlM (mulStep A B i k) C = some C1 ∧
      Holds N C1 (fun a b => if a = i then F a b + A.entry i k * B.entry k b else F a b) := by
  obtain ⟨C1, hrun, hinv⟩ := foldlM_range_inv (mulStep A B i k)
    (fun j D => Holds N D
      (fun a b => if a = i ∧ b < j then F a b + A.entry i k * B.entry k b else F a b))
    N C (hC.congr (fun a b _ _ => by simp)) (by
      intro j D hj hD
      obtain ⟨D1, hset, hD1⟩ := hD.setCell hi hj
        (F i j + A.entry i k * B.entry k j)
      refine ⟨D1, ?_, hD1.congr ?_⟩
      · have hc : D.at? i j = some (F i j) := by
          rw [hD.2 i j hi hj]
          simp
        simp [mulStep, at?_of_square hA hi hk, at?_of_square hB hk hj, hc, hset]
      · intro a b _ _
        by_cases hai : a = i
        · by_cases hbj : b = j
          · simp [hai, hbj]
          · have : (b < j + 1) = (b < j) := by
              apply propext
              omega
            simp [hai, hbj, this]
        · simp [hai])
  exact ⟨C1, hrun, hinv.congr (fun a b _ hb => by simp [hb])⟩

theorem mul_loop_k {N : Nat} {A B C : Matrix} {F : Nat → Nat → Int}
    (hA : IsSquare N A) (hB : IsSquare N B) (hC : Holds N C F) {i : Nat} (hi : i < N) :
    ∃ C1, (List.range N).foldlM
        (fun D k => (List.range N).foldlM (mulStep A B i k) D) C = some C1 ∧
      Holds N C1 (fun a b => if a = i then F a b + dotUpTo A B N i b else F a b) := by
  exact foldlM_range_inv (fun D k => (List.range N).foldlM (mulStep A B i k) D)
    (fun k D => Holds N D (fun a b => if a = i then F a b + dotUpTo A B k i b else F a b))
    N C (hC.congr (fun a b _ _ => by simp [dotUpTo])) (by
      intro k D hk hD
      obtain ⟨D1, hrun, hD1⟩ := mul_loop_j hA hB hD hi hk
      refine ⟨D1, hrun, hD1.congr ?_⟩
      intro a b _ _
      by_cases hai : a = i
      · simp [hai, dotUpTo_succ, add_assoc]
      · simp [hai])

theorem multiply_holds {N : Nat} {A B : Matrix} (hA : IsSquare N A) (hB : IsSquare N B) :
    ∃ C, multiply A B = some C ∧ Holds N C (dotUpTo A B N) := by
  have hlen : A.length = N := hA.1
  unfold multiply
  simp only [hlen]
  obtain ⟨C, hrun, hC⟩ := foldlM_range_inv
    (fun D i => (List.range N).foldlM
      (fun D k => (List.range N).foldlM (mulStep A B i k) D) D)
    (fun i D => Holds N D (fun a b => if a < i then dotUpTo A B N a b else 0))
    N (zeros N) ((zeros_holds N).congr (fun a b _ _ => by simp)) (by
      intro i D hi hD
      obtain ⟨D1, hrun, hD1⟩ := mul_loop_k hA hB hD hi
      refine ⟨D1, hrun, hD1.congr ?_⟩
      intro a b _ _
      by_cases hai : a = i
      · simp [hai]
      · have : (a < i + 1) = (a < i) := by
          apply propext
          omega
        simp [hai, this])
  exact ⟨C, hrun, hC.congr (fun a b ha _ => by simp [ha])⟩

/-! ## The loops of `add` -/

theorem add_loop_j {N : Nat} {A B C : Matrix} {F : Nat → Nat → Int}
    (hA : IsSquare N A) (hB : IsSquare N B) (hC : Holds N C F) {i : Nat} (hi : i < N) :
    ∃ C1, (List.range N).foldlM (fun D j => do
        let a ← A.at? i j
        let b ← B.at? i j
        D.setCell i j (a + b)) C = some C1 ∧
      Holds N C1 (fun a b => if a = i then A.entry a b + B.entry a b else F a b) := by
  obtain ⟨C1, hrun, hinv⟩ := foldlM_range_inv
    (fun (D : Matrix) j => do
        let a ← A.at? i j
        let b ← B.at? i j
        D.setCell i j (a + b))
    (fun j D => Holds N D
      (fun a b => if a = i ∧ b < j then A.entry a b + B.entry a b else F a b))
    N C (hC.congr (fun a b _ _ => by simp)) (by
      intro j D hj hD
      obtain ⟨D1, hset, hD1⟩ := hD.setCell hi hj (A.entry i j + B.entry i j)
      refine ⟨D1, ?_, hD1.congr ?_⟩
      · simp [at?_of_square hA hi hj, at?_of_square hB hi hj, hset]
      · intro a b _ _
        by_cases hai : a = i
        · by_cases hbj : b = j
          · simp [hai, hbj]
          · have : (b < j + 1) = (b < j) := by
              apply propext
              omega
            simp [hai, hbj, this]
        · simp [hai])
  exact ⟨C1, hrun, hinv.congr (fun a b _ hb => by simp [hb])⟩

theorem add_holds {N : Nat} {A B : Matrix} (hA : IsSquare N A) (hB : IsSquare N B) :
    ∃ C, add A B = some C ∧ Holds N C (fun a b => A.entry a b + B.entry a b) := by
  have hlen : A.length = N := hA.1
  unfold add
  simp only [hlen]
  obtain ⟨C, hrun, hC⟩ := foldlM_range_inv
    (fun (D : Matrix) i => (List.range N).foldlM (fun D j => do
        let a ← A.at? i j
        let b ← B.at? i j
        D.setCell i j (a + b)) D)
    (fun i D => Holds N D (fun a b => if a < i then A.entry a b + B.entry a b else 0))
    N (zeros N) ((zeros_holds N).congr (fun a b _ _ => by simp)) (by
      intro i D hi hD
      obtain ⟨D1, hrun, hD1⟩ := add_loop_j hA hB hD hi
      refine ⟨D1, hrun, hD1.congr ?_⟩
      intro a b _ _
      by_cases hai : a = i
      · simp [hai]
      · have : (a < i + 1) = (a < i) := by
          apply propext
          omega
        simp [hai, this])
  exact ⟨C, hrun, hC.congr (fun a b ha _ => by simp [ha])⟩

/-! ## The loop of `diagonalSums` -/

theorem idx?_of_nat (n : Nat) : idx? (n : Int) = some n := by
  simp [idx?]

theorem diagStep_eq {N : Nat} {M : Matrix} (hM : IsSquare N M) (acc : Int × Int)
    {i : Nat} (hi : i < N) :
    diagStep M N acc i = some (acc.1 + M.entry i i, acc.2 + M.entry i (N - 1 - i)) := by
  have hcol : ((N : Int) - 1 - (i : Int)) = ((N - 1 - i : Nat) : Int) := by omega
  have hlt : N - 1 - i < N := by omega
  simp [diagStep, hcol, idx?_of_nat, at?_of_square hM hi hi, at?_of_square hM hi hlt]

/-! ## The loop of `swapCols` -/

theorem swapColsStep_holds {N : Nat} {D : Matrix} {G : Nat → Nat → Int} (hD : Holds N D G)
    {c1 c2 i : Nat} (h1 : c1 < N) (h2 : c2 < N) (hi : i < N) :
    ∃ D1, swapColsStep c1 c2 D i = some D1 ∧
      Holds N D1 (fun a b => if a = i then swappedCols G c1 c2 a b else G a b) := by
  obtain ⟨E, hE, hEh⟩ := hD.setCell hi h1 (G i c2)
  obtain ⟨D1, hD1, hD1h⟩ := hEh.setCell hi h2 (G i c1)
  refine ⟨D1, ?_, hD1h.congr ?_⟩
  · simp [swapColsStep, hD.2 i c1 hi h1, hD.2 i c2 hi h2, hE, hD1]
  · intro a b _ _
    by_cases hai : a = i
    · subst hai
      by_cases hb2 : b = c2
      · by_cases hb1 : b = c1
        · subst hb1
          subst hb2
          simp [swappedCols]
        · subst hb2
          simp [swappedCols, hb1]
      · simp [swappedCols, hb2]
    · simp [hai]

theorem swapCols_loop {N : Nat} {M : Matrix} (hM : IsSquare N M) {c1 c2 : Nat}
    (h1 : c1 < N) (h2 : c2 < N) :
    ∃ M1, (List.range N).foldlM (swapColsStep c1 c2) M = some M1 ∧
      Holds N M1 (swappedCols M.entry c1 c2) := by
  obtain ⟨M1, hrun, hinv⟩ := foldlM_range_inv (swapColsStep c1 c2)
    (fun i D => Holds N D
      (fun a b => if a < i then swappedCols M.entry c1 c2 a b else M.entry a b))
    N M ((Holds.of_square hM).congr (fun a b _ _ => by simp)) (by
      intro i D hi hD
      obtain ⟨D1, hstep, hD1⟩ := swapColsStep_holds hD h1 h2 hi
      refine ⟨D1, hstep, hD1.congr ?_⟩
      intro a b _ _
      by_cases hai : a = i
      · subst hai
        simp [swappedCols]
      · have : (a < i + 1) = (a < i) := by
          apply propext
          omega
        simp only [hai, if_false, this])
  exact ⟨M1, hrun, hinv.congr (fun a b ha _ => by simp [ha])⟩

theorem swapCols_in_range {N : Nat} {M : Matrix} (hM : IsSquare N M) (c1 c2 : Int)
    (h1 : 0 ≤ c1 ∧ c1 < N) (h2 : 0 ≤ c2 ∧ c2 < N) :
    ∃ M1, swapCols M c1 c2 = some (true, M1) ∧
      Holds N M1 (swappedCols M.entry c1.toNat c2.toNat) := by
  have hlen : M.length = N := hM.1
  obtain ⟨M1, hrun, hM1⟩ := swapCols_loop hM
    (show c1.toNat < N by omega) (show c2.toNat < N by omega)
  refine ⟨M1, ?_, hM1⟩
  have hcond : ¬ (c1 < 0 ∨ c2 < 0 ∨ c1 ≥ (M.length : Int) ∨ c2 ≥ (M.length : Int)) := by
    omega
  unfold swapCols
  simp only [hcond, if_false]
  rw [hlen, hrun]
  rfl

theorem swapCols_out_of_range {M : Matrix} {c1 c2 : Int}
    (h : c1 < 0 ∨ c2 < 0 ∨ c1 ≥ (M.length : Int) ∨ c2 ≥ (M.length : Int)) :
    swapCols M c1 c2 = some (false, M) := by
  unfold swapCols
  simp only [h, if_true]

/-! ## `swapRows` and `updateCell` -/

theorem swapRows_out_of_range {M : Matrix} {r1 r2 : Int}
    (h : r1 < 0 ∨ r2 < 0 ∨ r1 ≥ (M.length : Int) ∨ r2 ≥ (M.length : Int)) :
    swapRows M r1 r2 = some (false, M) := by
  unfold swapRows
  simp only [h, if_true]

theorem swapRows_in_range (M : Matrix) (r1 r2 : Int)
    (h1 : 0 ≤ r1 ∧ r1 < (M.length : Int)) (h2 : 0 ≤ r2 ∧ r2 < (M.length : Int)) :
    ∃ a b, M[r1.toNat]? = some a ∧ M[r2.toNat]? = some b ∧
      swapRows M r1 r2 = some (true, (M.set r1.toNat b).set r2.toNat a) := by
  have hn1 : r1.toNat < M.length := by omega
  have hn2 : r2.toNat < M.length := by omega
  have hcond : ¬ (r1 < 0 ∨ r2 < 0 ∨ r1 ≥ (M.length : Int) ∨ r2 ≥ (M.length : Int)) := by
    omega
  refine ⟨M[r1.toNat], M[r2.toNat], List.getElem?_eq_getElem hn1,
    List.getElem?_eq_getElem hn2, ?_⟩
  unfold swapRows
  simp only [hcond, if_false, List.getElem?_eq_getElem hn1, List.getElem?_eq_getElem hn2]
  rfl

theorem updateCell_out_of_range {M : Matrix} {r c : Int} (v : Int)
    (h : r < 0 ∨ c < 0 ∨ r ≥ (M.length : Int) ∨ c ≥ (M.length : Int)) :
    updateCell M r c v = some (false, M) := by
  unfold updateCell
  simp only [h, if_true]

theorem updateCell_in_range {N : Nat} {M : Matrix} (hM : IsSquare N M) (r c v : Int)
    (h1 : 0 ≤ r ∧ r < N) (h2 : 0 ≤ c ∧ c < N) :
    ∃ M1, M.setCell r.toNat c.toNat v = some M1 ∧ updateCell M r c v = some (true, M1) := by
  have hlen : M.length = N := hM.1
  obtain ⟨M1, hM1⟩ := setCell_some hM
    (show r.toNat < N by omega) (show c.toNat < N by omega) v
  refine ⟨M1, hM1, ?_⟩
  have hcond : ¬ (r < 0 ∨ c < 0 ∨ r ≥ (M.length : Int) ∨ c ≥ (M.length : Int)) := by
    omega
  unfold updateCell
  simp only [hcond, if_false, hM1]
  rfl

/-! ## Multiplying by the identity -/

theorem identity_holds (N : Nat) : Holds N (identity N) (fun a b => if a = b then 1 else 0) := by
  refine ⟨⟨by simp [identity], ?_⟩, ?_⟩
  · intro row hrow
    simp only [identity, List.mem_map] at hrow
    obtain ⟨i, _, rfl⟩ := hrow
    simp
  · intro a b ha hb
    simp [Matrix.at?, identity, List.getElem?_map, List.getElem?_range, ha, hb]

theorem sum_range_pick (f g : Nat → Int) (b n : Nat) (hg : ∀ k, k ≠ b → g k = 0) :
    ((List.range n).map (fun k => f k * g k)).sum = if b < n then f b * g b else 0 := by
  induction n with
  | zero => simp
  | succ m ih =>
    rw [List.range_succ, List.map_append, List.sum_append, ih]
    by_cases hbm : b < m
    · have hne : m ≠ b := by omega
      have hlt : b < m + 1 := by omega
      simp [hbm, hlt, hg m hne]
    · by_cases hb : b = m
      · subst hb
        simp
      · have hne : m ≠ b := by omega
        have hlt : ¬ b < m + 1 := by omega
        simp [hbm, hlt, hg m hne]

theorem dotUpTo_identity_right {N : Nat} (A : Matrix) {b : Nat} (hb : b < N) (a : Nat) :
    dotUpTo A (identity N) N a b = A.entry a b := by
  have hval : ∀ k, k < N → (identity N).entry k b = if k = b then 1 else 0 :=
    fun k hk => (identity_holds N).entry_eq hk hb
  have hsum : dotUpTo A (identity N) N a b
      = ((List.range N).map (fun k => A.entry a k * (if k = b then 1 else 0))).sum := by
    unfold dotUpTo
    congr 1
    apply List.map_congr_left
    intro k hk
    rw [hval k (List.mem_range.mp hk)]
  rw [hsum, sum_range_pick (fun k => A.entry a k) (fun k => if k = b then 1 else 0) b N
    (fun k hk => by simp [hk])]
  simp [hb]

theorem dotUpTo_identity_left {N : Nat} (A : Matrix) {a : Nat} (ha : a < N) (b : Nat) :
    dotUpTo (identity N) A N a b = A.entry a b := by
  have hval : ∀ k, k < N → (identity N).entry a k = if a = k then 1 else 0 :=
    fun k hk => (identity_holds N).entry_eq ha hk
  have hsum : dotUpTo (identity N) A N a b
      = ((List.range N).map (fun k => A.entry k b * (if k = a then 1 else 0))).sum := by
    unfold dotUpTo
    congr 1
    apply List.map_congr_left
    intro k hk
    rw [hval k (List.mem_range.mp hk), mul_comm]
    by_cases hka : k = a
    · simp [hka]
    · simp [hka, Ne.symm hka]
  rw [hsum, sum_range_pick (fun k => A.entry k b) (fun k => if k = a then 1 else 0) a N
    (fun k hk => by simp [hk])]
  simp [ha]

/-! ## Theorems -/

/-- C4: for an `N x N` matrix `M` and integers `r1`, `r2`, `swapRows M r1 r2` returns,
its flag is `false` exactly when `r1` or `r2` is outside `[0, N)`, and when the flag
is `false` the matrix is unchanged. -/
theorem swapRows_failure (N : Nat) (M : Matrix) (hM : IsSquare N M) (r1 r2 : Int) :
    ∃ ok M1, swapRows M r1 r2 = some (ok, M1) ∧
      (ok = false ↔ ((r1 < 0 ∨ (N : Int) ≤ r1) ∨ (r2 < 0 ∨ (N : Int) ≤ r2))) ∧
      (ok = false → M1 = M) := by
  have hlen : M.length = N := hM.1
  by_cases h : r1 < 0 ∨ r2 < 0 ∨ r1 ≥ (M.length : Int) ∨ r2 ≥ (M.length : Int)
  · refine ⟨false, M, swapRows_out_of_range h, ?_, fun _ => rfl⟩
    simp only [true_iff]
    omega
  · obtain ⟨a, b, _, _, hrun⟩ := swapRows_in_range M r1 r2
      (by omega) (by omega)
    refine ⟨true, _, hrun, ?_, fun hf => by cases hf⟩
    constructor
    · intro hf
      cases hf
    · intro hout
      omega

/-- C4, the example of the specification: `swapRows M (-1) 0` fails and leaves `M`
unchanged. -/
theorem swapRows_failure_witness :
    swapRows [[1, 2], [3, 4]] (-1) 0 = some (false, [[1, 2], [3, 4]]) ∧
    ∃ ok M1, swapRows [[1, 2], [3, 4]] (-1) 0 = some (ok, M1) ∧
      (ok = false ↔ (((-1 : Int) < 0 ∨ ((2 : Nat) : Int) ≤ -1) ∨
        ((0 : Int) < 0 ∨ ((2 : Nat) : Int) ≤ 0))) ∧
      (ok = false → M1 = [[1, 2], [3, 4]]) :=
  ⟨by decide, swapRows_failure 2 [[1, 2], [3, 4]] (by decide) (-1) 0⟩

/-- C5: for an `N x N` matrix `M` and integers `c1`, `c2`, `swapCols M c1 c2` returns,
its flag is `false` exactly when `c1` or `c2` is outside `[0, N)`, and when the flag
is `false` the matrix is unchanged. -/
theorem swapCols_failure (N : Nat) (M : Matrix) (hM : IsSquare N M) (c1 c2 : Int) :
    ∃ ok M1, swapCols M c1 c2 = some (ok, M1) ∧
      (ok = false ↔ ((c1 < 0 ∨ (N : Int) ≤ c1) ∨ (c2 < 0 ∨ (N : Int) ≤ c2))) ∧
      (ok = false → M1 = M) := by
  have hlen : M.length = N := hM.1
  by_cases h : c1 < 0 ∨ c2 < 0 ∨ c1 ≥ (M.length : Int) ∨ c2 ≥ (M.length : Int)
  · refine ⟨false, M, swapCols_out_of_range h, ?_, fun _ => rfl⟩
    simp only [true_iff]
    omega
  · obtain ⟨M1, hrun, _⟩ := swapCols_in_range hM c1 c2
      (by omega) (by omega)
    refine ⟨true, M1, hrun, ?_, fun hf => by cases hf⟩
    constructor
    · intro hf
      cases hf
    · intro hout
      omega

/-- C5 at a concrete input: `swapCols M 0 2` on a `2 x 2` matrix fails and leaves
the matrix unchanged. -/
theorem swapCols_failure_witness :
    swapCols [[1, 2], [3, 4]] 0 2 = some (false, [[1, 2], [3, 4]]) ∧
    ∃ ok M1, swapCols [[1, 2], [3, 4]] 0 2 = some (ok, M1) ∧
      (ok = false ↔ (((0 : Int) < 0 ∨ ((2 : Nat) : Int) ≤ 0) ∨
        ((2 : Int) < 0 ∨ ((2 : Nat) : Int) ≤ 2))) ∧
      (ok = false → M1 = [[1, 2], [3, 4]]) :=
  ⟨by decide, swapCols_failure 2 [[1, 2], [3, 4]] (by decide) 0 2⟩

/-- C6: for an `N x N` matrix `M` and integers `r`, `c`, `value`,
`updateCell M r c value` returns, its flag is `false` exactly when `r` or `c` is
outside `[0, N)`, and when the flag is `false` the matrix is unchanged. -/
theorem updateCell_failure (N : Nat) (M : Matrix) (hM : IsSquare N M) (r c value : Int) :
    ∃ ok M1, updateCell M r c value = some (ok, M1) ∧
      (ok = false ↔ ((r < 0 ∨ (N : Int) ≤ r) ∨ (c < 0 ∨ (N : Int) ≤ c))) ∧
      (ok = false → M1 = M) := by
  have hlen : M.length = N := hM.1
  by_cases h : r < 0 ∨ c < 0 ∨ r ≥ (M.length : Int) ∨ c ≥ (M.length : Int)
  · refine ⟨false, M, updateCell_out_of_range value h, ?_, fun _ => rfl⟩
    simp only [true_iff]
    omega
  · obtain ⟨M1, _, hrun⟩ := updateCell_in_range hM r c value
      (by omega) (by omega)
    refine ⟨true, M1, hrun, ?_, fun hf => by cases hf⟩
    constructor
    · intro hf
      cases hf
    · intro hout
      omega

/-- C6, the example of the specification: `updateCell M 3 0 1` on a `3 x 3` matrix
fails and leaves the matrix unchanged. -/
theorem updateCell_failure_witness :
    updateCell [[1, 2, 3], [4, 5, 6], [7, 8, 9]] 3 0 1
      = some (false, [[1, 2, 3], [4, 5, 6], [7, 8, 9]]) ∧
    ∃ ok M1, updateCell [[1, 2, 3], [4, 5, 6], [7, 8, 9]] 3 0 1 = some (ok, M1) ∧
      (ok = false ↔ (((3 : Int) < 0 ∨ ((3 : Nat) : Int) ≤ 3) ∨
        ((0 : Int) < 0 ∨ ((3 : Nat) : Int) ≤ 0))) ∧
      (ok = false → M1 = [[1, 2, 3], [4, 5, 6], [7, 8, 9]]) :=
  ⟨by decide, updateCell_failure 3 [[1, 2, 3], [4, 5, 6], [7, 8, 9]] (by decide) 3 0 1⟩

/-- C7: for an `N x N` matrix `M` and `r1`, `r2` in `[0, N)`, `swapRows M r1 r2`
succeeds and in the resulting matrix row `r1` is the old row `r2`, row `r2` is the
old row `r1`, and every other row is unchanged. -/
theorem swapRows_exchanges (N : Nat) (M : Matrix) (hM : IsSquare N M) (r1 r2 : Nat)
    (h1 : r1 < N) (h2 : r2 < N) :
    ∃ M1, swapRows M (r1 : Int) (r2 : Int) = some (true, M1) ∧
      M1[r1]? = M[r2]? ∧ M1[r2]? = M[r1]? ∧
      ∀ i, i ≠ r1 → i ≠ r2 → M1[i]? = M[i]? := by
  have hlen : M.length = N := hM.1
  obtain ⟨a, b, ha, hb, hrun⟩ := swapRows_in_range M (r1 : Int)
    (r2 : Int) (by omega) (by omega)
  simp only [Int.toNat_ofNat] at ha hb hrun
  have hl1 : r1 < M.length := by omega
  have hl2 : r2 < M.length := by omega
  refine ⟨_, hrun, ?_, ?_, ?_⟩
  · by_cases h12 : r1 = r2
    · subst h12
      rw [List.getElem?_set_self (by simpa using hl1), ha]
    · rw [List.getElem?_set_ne (Ne.symm h12), List.getElem?_set_self hl1, hb]
  · rw [List.getElem?_set_self (by simpa using hl2), ha]
  · intro i hi1 hi2
    rw [List.getElem?_set_ne (Ne.symm hi2), List.getElem?_set_ne (Ne.symm hi1)]

/-- C7 at a concrete input: rows `0` and `2` of a `3 x 3` matrix are exchanged. -/
theorem swapRows_exchanges_witness :
    swapRows [[1, 2, 3], [4, 5, 6], [7, 8, 9]] 0 2
      = some (true, [[7, 8, 9], [4, 5, 6], [1, 2, 3]]) ∧
    ∃ M1 : Matrix, swapRows [[1, 2, 3], [4, 5, 6], [7, 8, 9]] ((0 : Nat) : Int) ((2 : Nat) : Int)
        = some (true, M1) ∧
      M1[0]? = ([[1, 2, 3], [4, 5, 6], [7, 8, 9]] : Matrix)[2]? ∧
      M1[2]? = ([[1, 2, 3], [4, 5, 6], [7, 8, 9]] : Matrix)[0]? ∧
      ∀ i, i ≠ 0 → i ≠ 2 → M1[i]? = ([[1, 2, 3], [4, 5, 6], [7, 8, 9]] : Matrix)[i]? :=
  ⟨by decide,
    swapRows_exchanges 3 [[1, 2, 3], [4, 5, 6], [7, 8, 9]] (by decide) 0 2
      (by decide) (by decide)⟩

/-- C8: for an `N x N` matrix `M` and `c1`, `c2` in `[0, N)`, `swapCols M c1 c2`
succeeds and in the resulting matrix, in every row `i`, cell `c1` is the old cell
`c2`, cell `c2` is the old cell `c1` and every other cell is unchanged; when
`c1 = c2` the matrix is unchanged. -/
theorem swapCols_exchanges (N : Nat) (M : Matrix) (hM : IsSquare N M) (c1 c2 : Nat)
    (h1 : c1 < N) (h2 : c2 < N) :
    ∃ M1, swapCols M (c1 : Int) (c2 : Int) = some (true, M1) ∧ IsSquare N M1 ∧
      (∀ i, i < N →
        M1.at? i c1 = M.at? i c2 ∧ M1.at? i c2 = M.at? i c1 ∧
        ∀ j, j < N → j ≠ c1 → j ≠ c2 → M1.at? i j = M.at? i j) ∧
      (c1 = c2 → M1 = M) := by
  obtain ⟨M1, hrun, hM1⟩ := swapCols_in_range hM (c1 : Int) (c2 : Int)
    (by omega) (by omega)
  simp only [Int.toNat_ofNat] at hM1
  refine ⟨M1, hrun, hM1.1, ?_, ?_⟩
  · intro i hi
    refine ⟨?_, ?_, ?_⟩
    · rw [hM1.2 i c1 hi h1, at?_of_square hM hi h2]
      simp [swappedCols]
    · rw [hM1.2 i c2 hi h2, at?_of_square hM hi h1]
      by_cases h12 : c2 = c1
      · simp [swappedCols, h12]
      · simp [swappedCols, h12]
    · intro j hj hj1 hj2
      rw [hM1.2 i j hi hj, at?_of_square hM hi hj]
      simp [swappedCols, hj1, hj2]
  · intro h12
    subst h12
    apply hM1.unique
    apply (Holds.of_square hM).congr
    intro a b _ _
    by_cases hb : b = c1
    · simp [swappedCols, hb]
    · simp [swappedCols, hb]

/-- C8, the example of the specification: `swapCols M 0 2` on
`[[1,2,3],[4,5,6],[7,8,9]]` yields `[[3,2,1],[6,5,4],[9,8,7]]`. -/
theorem swapCols_exchanges_witness :
    swapCols [[1, 2, 3], [4, 5, 6], [7, 8, 9]] 0 2
      = some (true, [[3, 2, 1], [6, 5, 4], [9, 8, 7]]) ∧
    ∃ M1, swapCols [[1, 2, 3], [4, 5, 6], [7, 8, 9]] ((0 : Nat) : Int) ((2 : Nat) : Int)
        = some (true, M1) ∧ IsSquare 3 M1 ∧
      (∀ i, i < 3 →
        M1.at? i 0 = Matrix.at? [[1, 2, 3], [4, 5, 6], [7, 8, 9]] i 2 ∧
        M1.at? i 2 = Matrix.at? [[1, 2, 3], [4, 5, 6], [7, 8, 9]] i 0 ∧
        ∀ j, j < 3 → j ≠ 0 → j ≠ 2 →
          M1.at? i j = Matrix.at? [[1, 2, 3], [4, 5, 6], [7, 8, 9]] i j) ∧
      ((0 : Nat) = 2 → M1 = [[1, 2, 3], [4, 5, 6], [7, 8, 9]]) :=
  ⟨by decide,
    swapCols_exchanges 3 [[1, 2, 3], [4, 5, 6], [7, 8, 9]] (by decide) 0 2
      (by decide) (by decide)⟩

/-- C9: for an `N x N` matrix `M`, `r`, `c` in `[0, N)` and an integer `value`,
`updateCell M r c value` succeeds and in the resulting matrix cell `(r, c)` holds
`value` and every other cell is unchanged. -/
theorem updateCell_sets (N : Nat) (M : Matrix) (hM : IsSquare N M) (r c : Nat) (value : Int)
    (hr : r < N) (hc : c < N) :
    ∃ M1, updateCell M (r : Int) (c : Int) value = some (true, M1) ∧ IsSquare N M1 ∧
      M1.at? r c = some value ∧
      ∀ i j, (i, j) ≠ (r, c) → M1.at? i j = M.at? i j := by
  obtain ⟨M1, hset, hrun⟩ := updateCell_in_range hM (r : Int) (c : Int) value
    (by omega) (by omega)
  simp only [Int.toNat_ofNat] at hset
  refine ⟨M1, hrun, setCell_square hset hM, ?_, ?_⟩
  · rw [setCell_at? hset]
    simp
  · intro i j hij
    rw [setCell_at? hset]
    have : ¬ (i = r ∧ j = c) := fun h => hij (by rw [h.1, h.2])
    simp [this]

/-- C9, the example of the specification: `updateCell M 1 1 99` on a `3 x 3` matrix
changes only the cell `(1, 1)`. -/
theorem updateCell_sets_witness :
    updateCell [[1, 2, 3], [4, 5, 6], [7, 8, 9]] 1 1 99
      = some (true, [[1, 2, 3], [4, 99, 6], [7, 8, 9]]) ∧
    ∃ M1, updateCell [[1, 2, 3], [4, 5, 6], [7, 8, 9]] ((1 : Nat) : Int) ((1 : Nat) : Int) 99
        = some (true, M1) ∧ IsSquare 3 M1 ∧
      M1.at? 1 1 = some 99 ∧
      ∀ i j, (i, j) ≠ (1, 1) →
        M1.at? i j = Matrix.at? [[1, 2, 3], [4, 5, 6], [7, 8, 9]] i j :=
  ⟨by decide,
    updateCell_sets 3 [[1, 2, 3], [4, 5, 6], [7, 8, 9]] (by decide) 1 1 99
      (by decide) (by decide)⟩

/-- C10: for an `N x N` matrix `A` and the `N x N` identity matrix `I`,
`multiply A I` and `multiply I A` both return `A`. -/
theorem multiply_identity (N : Nat) (A : Matrix) (hA : IsSquare N A) :
    multiply A (identity N) = some A ∧ multiply (identity N) A = some A := by
  have hI : IsSquare N (identity N) := (identity_holds N).1
  constructor
  · obtain ⟨C, hrun, hC⟩ := multiply_holds hA hI
    rw [hrun]
    congr 1
    apply hC.unique
    apply (Holds.of_square hA).congr
    intro a b _ hb
    rw [dotUpTo_identity_right A hb a]
  · obtain ⟨C, hrun, hC⟩ := multiply_holds hI hA
    rw [hrun]
    congr 1
    apply hC.unique
    apply (Holds.of_square hA).congr
    intro a b ha _
    rw [dotUpTo_identity_left A ha b]

/-- C10 at a concrete input: `[[1,2],[3,4]]` times the `2 x 2` identity, on either
side, is `[[1,2],[3,4]]`. -/
theorem multiply_identity_witness :
    identity 2 = [[1, 0], [0, 1]] ∧
    multiply [[1, 2], [3, 4]] (identity 2) = some [[1, 2], [3, 4]] ∧
    multiply (identity 2) [[1, 2], [3, 4]] = some [[1, 2], [3, 4]] :=
  ⟨by decide, multiply_identity 2 [[1, 2], [3, 4]] (by decide)⟩

/-! ## Squareness and totality of the mutating operations -/

theorem set_square {N : Nat} {M : Matrix} (hM : IsSquare N M) (i : Nat) {row : List Int}
    (hrow : row.length = N) : IsSquare N (M.set i row) := by
  refine ⟨by simpa using hM.1, ?_⟩
  intro r hr
  rcases List.mem_or_eq_of_mem_set hr with h1 | h1
  · exact hM.2 r h1
  · rw [h1, hrow]

theorem swapRows_total {N : Nat} {M : Matrix} (hM : IsSquare N M) (r1 r2 : Int) :
    ∃ ok M1, swapRows M r1 r2 = some (ok, M1) ∧ IsSquare N M1 := by
  by_cases h : r1 < 0 ∨ r2 < 0 ∨ r1 ≥ (M.length : Int) ∨ r2 ≥ (M.length : Int)
  · exact ⟨false, M, swapRows_out_of_range h, hM⟩
  · obtain ⟨a, b, ha, hb, hrun⟩ := swapRows_in_range M r1 r2 (by omega) (by omega)
    refine ⟨true, _, hrun, ?_⟩
    apply set_square _ _ (hM.2 a (List.getElem?_mem ha))
    exact set_square hM _ (hM.2 b (List.getElem?_mem hb))

theorem swapCols_total {N : Nat} {M : Matrix} (hM : IsSquare N M) (c1 c2 : Int) :
    ∃ ok M1, swapCols M c1 c2 = some (ok, M1) ∧ IsSquare N M1 := by
  have hlen : M.length = N := hM.1
  by_cases h : c1 < 0 ∨ c2 < 0 ∨ c1 ≥ (M.length : Int) ∨ c2 ≥ (M.length : Int)
  · exact ⟨false, M, swapCols_out_of_range h, hM⟩
  · obtain ⟨M1, hrun, hM1⟩ := swapCols_in_range hM c1 c2 (by omega) (by omega)
    exact ⟨true, M1, hrun, hM1.1⟩

theorem updateCell_total {N : Nat} {M : Matrix} (hM : IsSquare N M) (r c v : Int) :
    ∃ ok M1, updateCell M r c v = some (ok, M1) ∧ IsSquare N M1 := by
  have hlen : M.length = N := hM.1
  by_cases h : r < 0 ∨ c < 0 ∨ r ≥ (M.length : Int) ∨ c ≥ (M.length : Int)
  · exact ⟨false, M, updateCell_out_of_range v h, hM⟩
  · obtain ⟨M1, hset, hrun⟩ := updateCell_in_range hM r c v (by omega) (by omega)
    exact ⟨true, M1, hrun, setCell_square hset hM⟩

theorem swapRows_rows (M : Matrix) (r1 r2 : Nat) (h1 : r1 < M.length) (h2 : r2 < M.length) :
    ∃ M1, swapRows M (r1 : Int) (r2 : Int) = some (true, M1) ∧
      ∀ i, M1[i]? = if i = r2 then M[r1]? else if i = r1 then M[r2]? else M[i]? := by
  obtain ⟨a, b, ha, hb, hrun⟩ := swapRows_in_range M (r1 : Int) (r2 : Int)
    (by omega) (by omega)
  simp only [Int.toNat_ofNat] at ha hb hrun
  refine ⟨_, hrun, ?_⟩
  intro i
  by_cases hi2 : i = r2
  · subst hi2
    rw [List.getElem?_set_self (by simpa using h2), ha]
    simp
  · by_cases hi1 : i = r1
    · subst hi1
      rw [List.getElem?_set_ne (Ne.symm hi2), List.getElem?_set_self h1, hb]
      simp [hi2]
    · rw [List.getElem?_set_ne (Ne.symm hi2), List.getElem?_set_ne (Ne.symm hi1)]
      simp [hi1, hi2]

theorem updateCell_holds {N : Nat} {M : Matrix} (hM : IsSquare N M) (r c : Nat) (v : Int)
    (hr : r < N) (hc : c < N) :
    ∃ M1, updateCell M (r : Int) (c : Int) v = some (true, M1) ∧
      Holds N M1 (fun a b => if a = r ∧ b = c then v else M.entry a b) := by
  obtain ⟨M1, hset, hrun⟩ := updateCell_in_range hM (r : Int) (c : Int) v
    (by omega) (by omega)
  simp only [Int.toNat_ofNat] at hset
  obtain ⟨M2, hset2, hM2⟩ := (Holds.of_square hM).setCell hr hc v
  rw [hset] at hset2
  cases hset2
  exact ⟨M1, hrun, hM2⟩

theorem at?_isSome_iff {N : Nat} {M : Matrix} (hM : IsSquare N M) (i j : Nat) :
    (M.at? i j).isSome = true ↔ (i < N ∧ j < N) := by
  constructor
  · intro h
    unfold Matrix.at? at h
    cases hrow : M[i]? with
    | none => simp [hrow] at h
    | some row =>
      simp only [hrow] at h
      have hi : i < M.length := by
        by_contra hc
        rw [List.getElem?_eq_none (by omega)] at hrow
        cases hrow
      have hlen : row.length = N := hM.2 row (List.getElem?_mem hrow)
      have hj : j < row.length := by
        by_contra hc
        rw [List.getElem?_eq_none (by omega)] at h
        cases h
      exact ⟨by rw [← hM.1]; exact hi, by omega⟩
  · rintro ⟨hi, hj⟩
    rw [at?_of_square hM hi hj]
    rfl

theorem setCell_isSome_iff {N : Nat} {M : Matrix} (hM : IsSquare N M) (i j : Nat) (v : Int) :
    (M.setCell i j v).isSome = true ↔ (i < N ∧ j < N) := by
  constructor
  · intro h
    unfold Matrix.setCell at h
    cases hrow : M[i]? with
    | none => simp [hrow] at h
    | some row =>
      simp only [hrow] at h
      have hi : i < M.length := by
        by_contra hc
        rw [List.getElem?_eq_none (by omega)] at hrow
        cases hrow
      have hlen : row.length = N := hM.2 row (List.getElem?_mem hrow)
      by_cases hj : j < row.length
      · exact ⟨by rw [← hM.1]; exact hi, by omega⟩
      · simp [hj] at h
  · rintro ⟨hi, hj⟩
    obtain ⟨M1, hM1⟩ := setCell_some hM hi hj v
    rw [hM1]
    rfl

theorem diagonalSums_sums {N : Nat} {M : Matrix} (hM : IsSquare N M) :
    diagonalSums M =
      some (((List.range N).map (fun i => M.entry i i)).sum,
            ((List.range N).map (fun i => M.entry i (N - 1 - i))).sum) := by
  have hlen : M.length = N := hM.1
  obtain ⟨acc, hrun, hacc⟩ := foldlM_range_inv (diagStep M N)
    (fun n acc => acc = (((List.range n).map (fun i => M.entry i i)).sum,
      ((List.range n).map (fun i => M.entry i (N - 1 - i))).sum))
    N (0, 0) (by simp) (by
      intro i acc hi hacc
      refine ⟨_, diagStep_eq hM acc hi, ?_⟩
      rw [hacc]
      simp [List.range_succ])
  unfold diagonalSums
  rw [hlen, hrun, hacc]

/-- C13: for an `N x N` matrix `M` and `r` in `[0, N)`, `swapRows M r r` succeeds
and returns `M` unchanged. -/
theorem swapRows_self (N : Nat) (M : Matrix) (hM : IsSquare N M) (r : Nat) (hr : r < N) :
    swapRows M (r : Int) (r : Int) = some (true, M) := by
  have hlen : M.length = N := hM.1
  obtain ⟨M1, hrun, hrows⟩ := swapRows_rows M r r (by omega) (by omega)
  have hEq : M1 = M := by
    apply List.ext_getElem?
    intro i
    rw [hrows i]
    by_cases hi : i = r
    · simp [hi]
    · simp [hi]
  rw [hrun, hEq]

/-- C13 at a concrete input: swapping row `1` of a `2 x 2` matrix with itself. -/
theorem swapRows_self_witness :
    swapRows [[1, 2], [3, 4]] ((1 : Nat) : Int) ((1 : Nat) : Int)
      = some (true, [[1, 2], [3, 4]]) :=
  swapRows_self 2 [[1, 2], [3, 4]] (by decide) 1 (by decide)

/-- C14: for an `N x N` matrix `M` and `r`, `c` in `[0, N)`, writing the value
`M[r][c]` already in the cell succeeds and leaves `M` unchanged, and for every
`value` a second `updateCell` with the same arguments succeeds and returns the
matrix the first one returned. -/
theorem updateCell_idempotent (N : Nat) (M : Matrix) (hM : IsSquare N M) (r c : Nat)
    (hr : r < N) (hc : c < N) :
    (∃ x, M.at? r c = some x ∧ updateCell M (r : Int) (c : Int) x = some (true, M)) ∧
    ∀ value : Int, ∃ M1, updateCell M (r : Int) (c : Int) value = some (true, M1) ∧
      updateCell M1 (r : Int) (c : Int) value = some (true, M1) := by
  constructor
  · refine ⟨M.entry r c, at?_of_square hM hr hc, ?_⟩
    obtain ⟨M1, hrun, hM1⟩ := updateCell_holds hM r c (M.entry r c) hr hc
    have hEq : M1 = M := by
      apply hM1.unique
      apply (Holds.of_square hM).congr
      intro a b _ _
      by_cases hab : a = r ∧ b = c
      · simp [hab]
      · simp [hab]
    rw [hrun, hEq]
  · intro value
    obtain ⟨M1, hrun, hM1⟩ := updateCell_holds hM r c value hr hc
    obtain ⟨M2, hrun2, hM2⟩ := updateCell_holds hM1.1 r c value hr hc
    have hEq : M2 = M1 := by
      apply hM2.unique
      apply hM1.congr
      intro a b ha hb
      by_cases hab : a = r ∧ b = c
      · simp [hab]
      · simp only [hab, if_false]
        rw [hM1.entry_eq ha hb]
        simp [hab]
    refine ⟨M1, hrun, ?_⟩
    rw [hrun2, hEq]

/-- C14 at a concrete input: on `[[1,2],[3,4]]`, writing `4` at `(1, 1)` changes
nothing, and writing `9` there twice gives the same matrix as writing it once. -/
theorem updateCell_idempotent_witness :
    updateCell [[1, 2], [3, 4]] 1 1 4 = some (true, [[1, 2], [3, 4]]) ∧
    updateCell [[1, 2], [3, 9]] 1 1 9 = some (true, [[1, 2], [3, 9]]) ∧
    ((∃ x, Matrix.at? [[1, 2], [3, 4]] 1 1 = some x ∧
        updateCell [[1, 2], [3, 4]] ((1 : Nat) : Int) ((1 : Nat) : Int) x
          = some (true, [[1, 2], [3, 4]])) ∧
      ∀ value : Int, ∃ M1,
        updateCell [[1, 2], [3, 4]] ((1 : Nat) : Int) ((1 : Nat) : Int) value
          = some (true, M1) ∧
        updateCell M1 ((1 : Nat) : Int) ((1 : Nat) : Int) value = some (true, M1)) :=
  ⟨by decide, by decide,
    updateCell_idempotent 2 [[1, 2], [3, 4]] (by decide) 1 1 (by decide) (by decide)⟩

/-- C15: if `M`, `A` and `B` have `N` rows each of length `N`, then after any call of
`swapRows`, `swapCols` or `updateCell` on `M`, successful or failed and with any
integer arguments, the matrix still has `N` rows each of length `N`, and `add A B`
and `multiply A B` each return a matrix with `N` rows each of length `N`. -/
theorem squareness_invariant (N : Nat) (A B M : Matrix) (hA : IsSquare N A)
    (hB : IsSquare N B) (hM : IsSquare N M) :
    (∀ r1 r2 : Int, ∃ ok M1, swapRows M r1 r2 = some (ok, M1) ∧ IsSquare N M1) ∧
    (∀ c1 c2 : Int, ∃ ok M1, swapCols M c1 c2 = some (ok, M1) ∧ IsSquare N M1) ∧
    (∀ r c value : Int, ∃ ok M1, updateCell M r c value = some (ok, M1) ∧ IsSquare N M1) ∧
    (∃ C, add A B = some C ∧ IsSquare N C) ∧
    (∃ C, multiply A B = some C ∧ IsSquare N C) := by
  refine ⟨swapRows_total hM, swapCols_total hM, updateCell_total hM, ?_, ?_⟩
  · obtain ⟨C, hC, hCh⟩ := add_holds hA hB
    exact ⟨C, hC, hCh.1⟩
  · obtain ⟨C, hC, hCh⟩ := multiply_holds hA hB
    exact ⟨C, hC, hCh.1⟩

/-- C15 at a concrete input: the five operations on `2 x 2` matrices. -/
theorem squareness_invariant_witness :
    IsSquare 2 [[1, 2], [3, 4]] ∧
    ((∀ r1 r2 : Int, ∃ ok M1, swapRows [[1, 2], [3, 4]] r1 r2 = some (ok, M1) ∧ IsSquare 2 M1) ∧
    (∀ c1 c2 : Int, ∃ ok M1, swapCols [[1, 2], [3, 4]] c1 c2 = some (ok, M1) ∧ IsSquare 2 M1) ∧
    (∀ r c value : Int, ∃ ok M1,
      updateCell [[1, 2], [3, 4]] r c value = some (ok, M1) ∧ IsSquare 2 M1) ∧
    (∃ C, add [[1, 2], [3, 4]] [[5, 6], [7, 8]] = some C ∧ IsSquare 2 C) ∧
    (∃ C, multiply [[1, 2], [3, 4]] [[5, 6], [7, 8]] = some C ∧ IsSquare 2 C)) :=
  ⟨by decide,
    squareness_invariant 2 [[1, 2], [3, 4]] [[5, 6], [7, 8]] [[1, 2], [3, 4]]
      (by decide) (by decide) (by decide)⟩

/-- C16: on `N x N` matrices a cell read or write succeeds exactly when both indices
are in `[0, N)`, and `add`, `multiply` and `diagonalSums` always return a result, so
every cell access they perform is in range; likewise `swapRows`, `swapCols` and
`updateCell` return a result for all integer arguments, so the accesses made after
their bounds check are in range. -/
theorem operations_total (N : Nat) (A B M : Matrix) (hA : IsSquare N A)
    (hB : IsSquare N B) (hM : IsSquare N M) :
    (∀ i j, (M.at? i j).isSome = true ↔ (i < N ∧ j < N)) ∧
    (∀ i j v, (M.setCell i j v).isSome = true ↔ (i < N ∧ j < N)) ∧
    (add A B).isSome = true ∧ (multiply A B).isSome = true ∧
    (diagonalSums M).isSome = true ∧
    (∀ r1 r2 : Int, (swapRows M r1 r2).isSome = true) ∧
    (∀ c1 c2 : Int, (swapCols M c1 c2).isSome = true) ∧
    (∀ r c value : Int, (updateCell M r c value).isSome = true) := by
  refine ⟨at?_isSome_iff hM, setCell_isSome_iff hM, ?_, ?_, ?_, ?_, ?_, ?_⟩
  · obtain ⟨C, hC, _⟩ := add_holds hA hB
    rw [hC]
    rfl
  · obtain ⟨C, hC, _⟩ := multiply_holds hA hB
    rw [hC]
    rfl
  · rw [diagonalSums_sums hM]
    rfl
  · intro r1 r2
    obtain ⟨ok, M1, h, _⟩ := swapRows_total hM r1 r2
    rw [h]
    rfl
  · intro c1 c2
    obtain ⟨ok, M1, h, _⟩ := swapCols_total hM c1 c2
    rw [h]
    rfl
  · intro r c value
    obtain ⟨ok, M1, h, _⟩ := updateCell_total hM r c value
    rw [h]
    rfl

/-- C16 at a concrete input: the operations on `2 x 2` matrices. -/
theorem operations_total_witness :
    (diagonalSums [[1, 2], [3, 4]]).isSome = true ∧
    ((∀ i j, (Matrix.at? [[1, 2], [3, 4]] i j).isSome = true ↔ (i < 2 ∧ j < 2)) ∧
    (∀ i j v, (Matrix.setCell [[1, 2], [3, 4]] i j v).isSome = true ↔ (i < 2 ∧ j < 2)) ∧
    (add [[1, 2], [3, 4]] [[5, 6], [7, 8]]).isSome = true ∧
    (multiply [[1, 2], [3, 4]] [[5, 6], [7, 8]]).isSome = true ∧
    (diagonalSums [[1, 2], [3, 4]]).isSome = true ∧
    (∀ r1 r2 : Int, (swapRows [[1, 2], [3, 4]] r1 r2).isSome = true) ∧
    (∀ c1 c2 : Int, (swapCols [[1, 2], [3, 4]] c1 c2).isSome = true) ∧
    (∀ r c value : Int, (updateCell [[1, 2], [3, 4]] r c value).isSome = true)) :=
  ⟨by decide,
    operations_total 2 [[1, 2], [3, 4]] [[5, 6], [7, 8]] [[1, 2], [3, 4]]
      (by decide) (by decide) (by decide)⟩

/-! ## Sums over an index range -/

theorem sum_range_eq_finset (f : Nat → Int) (n : Nat) :
    ((List.range n).map f).sum = ∑ i ∈ Finset.range n, f i := by
  induction n with
  | zero => simp
  | succ m ih => rw [List.range_succ, List.map_append, List.sum_append, ih,
      Finset.sum_range_succ]; simp

theorem dotUpTo_eq_finset (A B : Matrix) (n i j : Nat) :
    dotUpTo A B n i j = ∑ k ∈ Finset.range n, A.entry i k * B.entry k j := by
  unfold dotUpTo
  exact sum_range_eq_finset (fun k => A.entry i k * B.entry k j) n

theorem sum_range_replace (f : Nat → Int) (c : Nat) (v : Int) (n : Nat) :
    ((List.range n).map (fun i => if i = c then v else f i)).sum
      = ((List.range n).map f).sum + (if c < n then v - f c else 0) := by
  induction n with
  | zero => simp
  | succ m ih =>
    rw [List.range_succ, List.map_append, List.sum_append, ih, List.map_append,
      List.sum_append]
    by_cases hcm : c < m
    · have hne : m ≠ c := by omega
      have hlt : c < m + 1 := by omega
      simp [hcm, hlt, hne]
      ring
    · by_cases hc : c = m
      · subst hc
        simp
      · have hne : m ≠ c := by omega
        have hlt : ¬ c < m + 1 := by omega
        simp [hcm, hlt, hne]

theorem sum_range_congr {f g : Nat → Int} {n : Nat} (h : ∀ i, i < n → f i = g i) :
    ((List.range n).map f).sum = ((List.range n).map g).sum := by
  congr 1
  apply List.map_congr_left
  intro i hi
  exact h i (List.mem_range.mp hi)

/-! ## Swapping twice -/

theorem swappedCols_twice (F : Nat → Nat → Int) (c1 c2 a b : Nat) :
    swappedCols (swappedCols F c1 c2) c1 c2 a b = F a b := by
  unfold swappedCols
  by_cases hb1 : b = c1
  · by_cases h21 : c2 = c1
    · simp [hb1, h21]
    · simp [hb1, h21]
  · by_cases hb2 : b = c2
    · by_cases h12 : c1 = c2
      · simp [hb2, h12]
      · have h21 : ¬ c2 = c1 := fun h => h12 h.symm
        simp [hb2, h12, h21]
    · simp [hb1, hb2]

theorem swapCols_twice {N : Nat} {M : Matrix} (hM : IsSquare N M) (c1 c2 : Nat)
    (h1 : c1 < N) (h2 : c2 < N) :
    ∃ M1, swapCols M (c1 : Int) (c2 : Int) = some (true, M1) ∧
      swapCols M1 (c1 : Int) (c2 : Int) = some (true, M) := by
  obtain ⟨M1, hrun1, hM1⟩ := swapCols_in_range hM (c1 : Int) (c2 : Int) (by omega) (by omega)
  obtain ⟨M2, hrun2, hM2⟩ := swapCols_in_range hM1.1 (c1 : Int) (c2 : Int)
    (by omega) (by omega)
  simp only [Int.toNat_ofNat] at hM1 hM2
  have hEq : M2 = M := by
    apply hM2.unique
    apply (Holds.of_square hM).congr
    intro a b ha hb
    rw [← swappedCols_twice M.entry c1 c2 a b]
    unfold swappedCols
    rw [hM1.entry_eq ha h1, hM1.entry_eq ha h2, hM1.entry_eq ha hb]
    rfl
  refine ⟨M1, hrun1, ?_⟩
  rw [hrun2, hEq]

theorem swapRows_twice (M : Matrix) (r1 r2 : Nat) (h1 : r1 < M.length) (h2 : r2 < M.length) :
    ∃ M1, swapRows M (r1 : Int) (r2 : Int) = some (true, M1) ∧
      swapRows M1 (r1 : Int) (r2 : Int) = some (true, M) := by
  obtain ⟨M1, hrun1, hrows1⟩ := swapRows_rows M r1 r2 h1 h2
  have hlen : M1.length = M.length := by
    have hsome : ∀ i : Nat, (M1[i]?).isSome = (M[i]?).isSome := by
      intro i
      rw [hrows1 i]
      by_cases hi2 : i = r2
      · simp [hi2, List.getElem?_eq_getElem h1, List.getElem?_eq_getElem h2]
      · by_cases hi1 : i = r1
        · rw [if_neg hi2, if_pos hi1, hi1, List.getElem?_eq_getElem h1,
            List.getElem?_eq_getElem h2]
          rfl
        · simp [hi1, hi2]
    apply Nat.le_antisymm
    · by_contra hc
      have := hsome M.length
      rw [List.getElem?_eq_getElem (show M.length < M1.length by omega),
        List.getElem?_eq_none (Nat.le_refl _)] at this
      cases this
    · by_contra hc
      have := hsome M1.length
      rw [List.getElem?_eq_getElem (show M1.length < M.length by omega),
        List.getElem?_eq_none (Nat.le_refl _)] at this
      cases this
  obtain ⟨M2, hrun2, hrows2⟩ := swapRows_rows M1 r1 r2 (by omega) (by omega)
  have hEq : M2 = M := by
    apply List.ext_getElem?
    intro i
    rw [hrows2 i]
    by_cases hi2 : i = r2
    · subst hi2
      rw [if_pos rfl, hrows1 r1]
      by_cases h12 : r1 = i
      · simp [h12]
      · simp [h12]
    · by_cases hi1 : i = r1
      · subst hi1
        rw [if_neg hi2, if_pos rfl, hrows1 r2]
        simp
      · rw [if_neg hi2, if_neg hi1, hrows1 i, if_neg hi2, if_neg hi1]
  refine ⟨M1, hrun1, ?_⟩
  rw [hrun2, hEq]

/-- C18: for an `N x N` matrix `M`, `r1`, `r2` in `[0, N)` and `c1`, `c2` in
`[0, N)`, two calls `swapRows . r1 r2` both succeed and give back `M`, and two calls
`swapCols . c1 c2` both succeed and give back `M`. -/
theorem swaps_involutive (N : Nat) (M : Matrix) (hM : IsSquare N M) (r1 r2 c1 c2 : Nat)
    (hr1 : r1 < N) (hr2 : r2 < N) (hc1 : c1 < N) (hc2 : c2 < N) :
    (∃ M1, swapRows M (r1 : Int) (r2 : Int) = some (true, M1) ∧
      swapRows M1 (r1 : Int) (r2 : Int) = some (true, M)) ∧
    (∃ M1, swapCols M (c1 : Int) (c2 : Int) = some (true, M1) ∧
      swapCols M1 (c1 : Int) (c2 : Int) = some (true, M)) := by
  have hlen : M.length = N := hM.1
  exact ⟨swapRows_twice M r1 r2 (by omega) (by omega), swapCols_twice hM c1 c2 hc1 hc2⟩

/-- C18 at a concrete input: rows `0`, `2` and columns `0`, `1` of a `3 x 3` matrix. -/
theorem swaps_involutive_witness :
    swapRows [[7, 8, 9], [4, 5, 6], [1, 2, 3]] 0 2
      = some (true, [[1, 2, 3], [4, 5, 6], [7, 8, 9]]) ∧
    swapCols [[2, 1, 3], [5, 4, 6], [8, 7, 9]] 0 1
      = some (true, [[1, 2, 3], [4, 5, 6], [7, 8, 9]]) ∧
    ((∃ M1, swapRows [[1, 2, 3], [4, 5, 6], [7, 8, 9]] ((0 : Nat) : Int) ((2 : Nat) : Int)
        = some (true, M1) ∧
      swapRows M1 ((0 : Nat) : Int) ((2 : Nat) : Int)
        = some (true, [[1, 2, 3], [4, 5, 6], [7, 8, 9]])) ∧
    (∃ M1, swapCols [[1, 2, 3], [4, 5, 6], [7, 8, 9]] ((0 : Nat) : Int) ((1 : Nat) : Int)
        = some (true, M1) ∧
      swapCols M1 ((0 : Nat) : Int) ((1 : Nat) : Int)
        = some (true, [[1, 2, 3], [4, 5, 6], [7, 8, 9]]))) :=
  ⟨by decide, by decide,
    swaps_involutive 3 [[1, 2, 3], [4, 5, 6], [7, 8, 9]] (by decide) 0 2 0 1
      (by decide) (by decide) (by decide) (by decide)⟩

/-! ## Products of sums -/

theorem sum_sum_assoc (f g h : Nat → Nat → Int) (n a b : Nat) :
    ∑ k ∈ Finset.range n, (∑ l ∈ Finset.range n, f a l * g l k) * h k b
      = ∑ l ∈ Finset.range n, f a l * ∑ k ∈ Finset.range n, g l k * h k b := by
  have hL : ∀ k, (∑ l ∈ Finset.range n, f a l * g l k) * h k b
      = ∑ l ∈ Finset.range n, f a l * (g l k * h k b) := by
    intro k
    rw [Finset.sum_mul]
    apply Finset.sum_congr rfl
    intro l _
    ring
  have hR : ∀ l, f a l * ∑ k ∈ Finset.range n, g l k * h k b
      = ∑ k ∈ Finset.range n, f a l * (g l k * h k b) := by
    intro l
    rw [Finset.mul_sum]
  simp only [hL, hR]
  exact Finset.sum_comm

/-! ## Multiplication with 32-bit wraparound -/

theorem wrap32_add_wrap (x y : Int) : wrap32 (wrap32 x + wrap32 y) = wrap32 (x + y) := by
  unfold wrap32
  omega

theorem wrap32_congr {x y : Int} (h : x % 4294967296 = y % 4294967296) :
    wrap32 x = wrap32 y := by
  unfold wrap32
  omega

theorem wrap32_emod (x : Int) : wrap32 x % 4294967296 = x % 4294967296 := by
  unfold wrap32
  omega

theorem wrap32_range (x : Int) : -2147483648 ≤ wrap32 x ∧ wrap32 x < 2147483648 := by
  unfold wrap32
  omega

theorem wrap32_sub_emod (x : Int) : (wrap32 x - x) % 4294967296 = 0 := by
  unfold wrap32
  omega

theorem mul32_loop_j {N : Nat} {A B C : Matrix} {F : Nat → Nat → Int}
    (hA : IsSquare N A) (hB : IsSquare N B) (hC : Holds N C F)
    {i k : Nat} (hi : i < N) (hk : k < N) :
    ∃ C1, (List.range N).foldlM (mulStep32 A B i k) C = some C1 ∧
      Holds N C1 (fun a b =>
        if a = i then wrap32 (F a b + wrap32 (A.entry i k * B.entry k b)) else F a b) := by
  obtain ⟨C1, hrun, hinv⟩ := foldlM_range_inv (mulStep32 A B i k)
    (fun j D => Holds N D
      (fun a b => if a = i ∧ b < j
        then wrap32 (F a b + wrap32 (A.entry i k * B.entry k b)) else F a b))
    N C (hC.congr (fun a b _ _ => by simp)) (by
      intro j D hj hD
      obtain ⟨D1, hset, hD1⟩ := hD.setCell hi hj
        (wrap32 (F i j + wrap32 (A.entry i k * B.entry k j)))
      refine ⟨D1, ?_, hD1.congr ?_⟩
      · have hc : D.at? i j = some (F i j) := by
          rw [hD.2 i j hi hj]
          simp
        simp [mulStep32, at?_of_square hA hi hk, at?_of_square hB hk hj, hc, hset]
      · intro a b _ _
        by_cases hai : a = i
        · by_cases hbj : b = j
          · simp [hai, hbj]
          · have : (b < j + 1) = (b < j) := by
              apply propext
              omega
            simp [hai, hbj, this]
        · simp [hai])
  exact ⟨C1, hrun, hinv.congr (fun a b _ hb => by simp [hb])⟩

theorem mul32_loop_k {N : Nat} {A B C : Matrix} {F : Nat → Nat → Int}
    (hA : IsSquare N A) (hB : IsSquare N B) (hC : Holds N C F) {i : Nat} (hi : i < N)
    (hrow : ∀ b, b < N → F i b = 0) :
    ∃ C1, (List.range N).foldlM
        (fun D k => (List.range N).foldlM (mulStep32 A B i k) D) C = some C1 ∧
      Holds N C1 (fun a b => if a = i then wrap32 (dotUpTo A B N i b) else F a b) := by
  exact foldlM_range_inv (fun D k => (List.range N).foldlM (mulStep32 A B i k) D)
    (fun k D => Holds N D (fun a b => if a = i then wrap32 (dotUpTo A B k i b) else F a b))
    N C (hC.congr (fun a b _ hb => by
      by_cases hai : a = i
      · subst hai
        simp [dotUpTo, hrow b hb, wrap32]
      · simp [hai])) (by
      intro k D hk hD
      obtain ⟨D1, hrun, hD1⟩ := mul32_loop_j hA hB hD hi hk
      refine ⟨D1, hrun, hD1.congr ?_⟩
      intro a b _ _
      by_cases hai : a = i
      · simp only [hai, if_true, dotUpTo_succ]
        exact wrap32_add_wrap _ _
      · simp [hai])

theorem multiply32_holds {N : Nat} {A B : Matrix} (hA : IsSquare N A) (hB : IsSquare N B) :
    ∃ C, multiply32 A B = some C ∧ Holds N C (fun a b => wrap32 (dotUpTo A B N a b)) := by
  have hlen : A.length = N := hA.1
  unfold multiply32
  simp only [hlen]
  obtain ⟨C, hrun, hC⟩ := foldlM_range_inv
    (fun D i => (List.range N).foldlM
      (fun D k => (List.range N).foldlM (mulStep32 A B i k) D) D)
    (fun i D => Holds N D (fun a b => if a < i then wrap32 (dotUpTo A B N a b) else 0))
    N (zeros N) ((zeros_holds N).congr (fun a b _ _ => by simp)) (by
      intro i D hi hD
      obtain ⟨D1, hrun, hD1⟩ := mul32_loop_k hA hB hD hi (fun b _ => by simp)
      refine ⟨D1, hrun, hD1.congr ?_⟩
      intro a b _ _
      by_cases hai : a = i
      · simp [hai]
      · have : (a < i + 1) = (a < i) := by
          apply propext
          omega
        simp [hai, this])
  exact ⟨C, hrun, hC.congr (fun a b ha _ => by simp [ha])⟩

/-! ## Associativity -/

theorem modEq_sum_range (m : Int) (f g : Nat → Int) (n : Nat)
    (h : ∀ k, k < n → Int.ModEq m (f k) (g k)) :
    Int.ModEq m (∑ k ∈ Finset.range n, f k) (∑ k ∈ Finset.range n, g k) := by
  induction n with
  | zero => simp [Int.ModEq]
  | succ j ih =>
    rw [Finset.sum_range_succ, Finset.sum_range_succ]
    exact Int.ModEq.add (ih (fun k hk => h k (Nat.lt_succ_of_lt hk))) (h j (Nat.lt_succ_self j))

theorem dotUpTo_assoc {N : Nat} {A B C P Q : Matrix} (hP : Holds N P (dotUpTo A B N))
    (hQ : Holds N Q (dotUpTo B C N)) {a b : Nat} (ha : a < N) (hb : b < N) :
    dotUpTo P C N a b = dotUpTo A Q N a b := by
  rw [dotUpTo_eq_finset, dotUpTo_eq_finset]
  have hL : ∑ k ∈ Finset.range N, P.entry a k * C.entry k b
      = ∑ k ∈ Finset.range N, (∑ l ∈ Finset.range N, A.entry a l * B.entry l k) * C.entry k b := by
    apply Finset.sum_congr rfl
    intro k hk
    rw [hP.entry_eq ha (Finset.mem_range.mp hk), dotUpTo_eq_finset]
  have hR : ∑ l ∈ Finset.range N, A.entry a l * Q.entry l b
      = ∑ l ∈ Finset.range N, A.entry a l * ∑ k ∈ Finset.range N, B.entry l k * C.entry k b := by
    apply Finset.sum_congr rfl
    intro l hl
    rw [hQ.entry_eq (Finset.mem_range.mp hl) hb, dotUpTo_eq_finset]
  rw [hL, hR]
  exact sum_sum_assoc A.entry B.entry C.entry N a b

theorem dotUpTo_assoc32 {N : Nat} {A B C P Q : Matrix}
    (hP : Holds N P (fun a b => wrap32 (dotUpTo A B N a b)))
    (hQ : Holds N Q (fun a b => wrap32 (dotUpTo B C N a b))) {a b : Nat}
    (ha : a < N) (hb : b < N) :
    wrap32 (dotUpTo P C N a b) = wrap32 (dotUpTo A Q N a b) := by
  apply wrap32_congr
  rw [dotUpTo_eq_finset, dotUpTo_eq_finset]
  have hL : Int.ModEq 4294967296 (∑ k ∈ Finset.range N, P.entry a k * C.entry k b)
      (∑ k ∈ Finset.range N,
        (∑ l ∈ Finset.range N, A.entry a l * B.entry l k) * C.entry k b) := by
    apply modEq_sum_range
    intro k hk
    rw [hP.entry_eq ha hk, dotUpTo_eq_finset]
    exact Int.ModEq.mul_right _ (wrap32_emod _)
  have hR : Int.ModEq 4294967296 (∑ l ∈ Finset.range N, A.entry a l * Q.entry l b)
      (∑ l ∈ Finset.range N,
        A.entry a l * ∑ k ∈ Finset.range N, B.entry l k * C.entry k b) := by
    apply modEq_sum_range
    intro l hl
    rw [hQ.entry_eq hl hb, dotUpTo_eq_finset]
    exact Int.ModEq.mul_left _ (wrap32_emod _)
  rw [sum_sum_assoc A.entry B.entry C.entry N a b] at hL
  exact hL.trans hR.symm

/-- C17: with `int` as 32-bit two's complement with wraparound, `multiply` on `N x N`
matrices returns an `N x N` matrix (no error) whose cell `(i, j)` is the sum over `k`
of `A[i][k] * B[k][j]` reduced modulo `2^32` into `[-2^31, 2^31)`; and for the
`1 x 1` matrices `[[65536]]` and `[[65536]]`, whose entries are representable, it
returns `[[0]]` while the exact product is `[[4294967296]]`. -/
theorem multiply32_wraps (N : Nat) (A B : Matrix) (hA : IsSquare N A) (hB : IsSquare N B) :
    (∃ C, multiply32 A B = some C ∧ IsSquare N C ∧
      ∀ i j, i < N → j < N → ∃ e, C.at? i j = some e ∧
        e = wrap32 (((List.range N).map (fun k => A.entry i k * B.entry k j)).sum) ∧
        (-2147483648 ≤ e ∧ e < 2147483648) ∧
        (e - ((List.range N).map (fun k => A.entry i k * B.entry k j)).sum)
          % 4294967296 = 0) ∧
    (wrap32 65536 = 65536 ∧
      multiply32 [[65536]] [[65536]] = some [[0]] ∧
      multiply [[65536]] [[65536]] = some [[4294967296]] ∧
      (0 : Int) ≠ 65536 * 65536) := by
  constructor
  · obtain ⟨C, hrun, hC⟩ := multiply32_holds hA hB
    refine ⟨C, hrun, hC.1, ?_⟩
    intro i j hi hj
    exact ⟨_, hC.2 i j hi hj, rfl, wrap32_range _, wrap32_sub_emod _⟩
  · refine ⟨by decide, by decide, by decide, by decide⟩

/-- C17 at the input of the claim: the `1 x 1` matrices `[[65536]]` and `[[65536]]`. -/
theorem multiply32_wraps_witness :
    (∃ C, multiply32 [[65536]] [[65536]] = some C ∧ IsSquare 1 C ∧
      ∀ i j, i < 1 → j < 1 → ∃ e, C.at? i j = some e ∧
        e = wrap32 (((List.range 1).map
          (fun k => Matrix.entry [[65536]] i k * Matrix.entry [[65536]] k j)).sum) ∧
        (-2147483648 ≤ e ∧ e < 2147483648) ∧
        (e - ((List.range 1).map
          (fun k => Matrix.entry [[65536]] i k * Matrix.entry [[65536]] k j)).sum)
          % 4294967296 = 0) ∧
    (wrap32 65536 = 65536 ∧
      multiply32 [[65536]] [[65536]] = some [[0]] ∧
      multiply [[65536]] [[65536]] = some [[4294967296]] ∧
      (0 : Int) ≠ 65536 * 65536) :=
  multiply32_wraps 1 [[65536]] [[65536]] (by decide) (by decide)

/-- C19: for `N x N` matrices `A`, `B`, `C`, `multiply (multiply A B) C` and
`multiply A (multiply B C)` return the same matrix, over exact integers and equally
with `int` as 32-bit two's complement with wraparound. -/
theorem multiply_associative (N : Nat) (A B C : Matrix) (hA : IsSquare N A)
    (hB : IsSquare N B) (hC : IsSquare N C) :
    (∃ P Q R, multiply A B = some P ∧ multiply B C = some Q ∧
      multiply P C = some R ∧ multiply A Q = some R) ∧
    (∃ P Q R, multiply32 A B = some P ∧ multiply32 B C = some Q ∧
      multiply32 P C = some R ∧ multiply32 A Q = some R) := by
  constructor
  · obtain ⟨P, hP, hPh⟩ := multiply_holds hA hB
    obtain ⟨Q, hQ, hQh⟩ := multiply_holds hB hC
    obtain ⟨R, hR, hRh⟩ := multiply_holds hPh.1 hC
    obtain ⟨T, hT, hTh⟩ := multiply_holds hA hQh.1
    have hEq : T = R := by
      apply hTh.unique
      apply hRh.congr
      intro a b ha hb
      exact dotUpTo_assoc hPh hQh ha hb
    exact ⟨P, Q, R, hP, hQ, hR, by rw [hT, hEq]⟩
  · obtain ⟨P, hP, hPh⟩ := multiply32_holds hA hB
    obtain ⟨Q, hQ, hQh⟩ := multiply32_holds hB hC
    obtain ⟨R, hR, hRh⟩ := multiply32_holds hPh.1 hC
    obtain ⟨T, hT, hTh⟩ := multiply32_holds hA hQh.1
    have hEq : T = R := by
      apply hTh.unique
      apply hRh.congr
      intro a b ha hb
      exact dotUpTo_assoc32 hPh hQh ha hb
    exact ⟨P, Q, R, hP, hQ, hR, by rw [hT, hEq]⟩

/-- C19 at a concrete input: `A = [[1,2],[3,4]]`, `B = [[5,6],[7,8]]`,
`C = [[1,0],[2,1]]`, where both products are `[[63,22],[143,50]]`. -/
theorem multiply_associative_witness :
    multiply [[19, 22], [43, 50]] [[1, 0], [2, 1]] = some [[63, 22], [143, 50]] ∧
    multiply [[1, 2], [3, 4]] [[17, 6], [23, 8]] = some [[63, 22], [143, 50]] ∧
    ((∃ P Q R, multiply [[1, 2], [3, 4]] [[5, 6], [7, 8]] = some P ∧
      multiply [[5, 6], [7, 8]] [[1, 0], [2, 1]] = some Q ∧
      multiply P [[1, 0], [2, 1]] = some R ∧ multiply [[1, 2], [3, 4]] Q = some R) ∧
    (∃ P Q R, multiply32 [[1, 2], [3, 4]] [[5, 6], [7, 8]] = some P ∧
      multiply32 [[5, 6], [7, 8]] [[1, 0], [2, 1]] = some Q ∧
      multiply32 P [[1, 0], [2, 1]] = some R ∧ multiply32 [[1, 2], [3, 4]] Q = some R)) :=
  ⟨by decide, by decide,
    multiply_associative 2 [[1, 2], [3, 4]] [[5, 6], [7, 8]] [[1, 0], [2, 1]]
      (by decide) (by decide) (by decide)⟩

/-! ## Addition and diagonal sums with 32-bit wraparound -/

theorem wrap32_of_inInt32 {z : Int} (h : InInt32 z) : wrap32 z = z := by
  unfold InInt32 at h
  unfold wrap32
  omega

theorem wrap32_add_left (x y : Int) : wrap32 (wrap32 x + y) = wrap32 (x + y) := by
  unfold wrap32
  omega

theorem wrap32_zero : wrap32 0 = 0 := by
  decide

theorem add32_loop_j {N : Nat} {A B C : Matrix} {F : Nat → Nat → Int}
    (hA : IsSquare N A) (hB : IsSquare N B) (hC : Holds N C F) {i : Nat} (hi : i < N) :
    ∃ C1, (List.range N).foldlM (fun D j => do
        let a ← A.at? i j
        let b ← B.at? i j
        D.setCell i j (wrap32 (a + b))) C = some C1 ∧
      Holds N C1 (fun a b => if a = i then wrap32 (A.entry a b + B.entry a b) else F a b) := by
  obtain ⟨C1, hrun, hinv⟩ := foldlM_range_inv
    (fun (D : Matrix) j => do
        let a ← A.at? i j
        let b ← B.at? i j
        D.setCell i j (wrap32 (a + b)))
    (fun j D => Holds N D
      (fun a b => if a = i ∧ b < j then wrap32 (A.entry a b + B.entry a b) else F a b))
    N C (hC.congr (fun a b _ _ => by simp)) (by
      intro j D hj hD
      obtain ⟨D1, hset, hD1⟩ := hD.setCell hi hj (wrap32 (A.entry i j + B.entry i j))
      refine ⟨D1, ?_, hD1.congr ?_⟩
      · simp [at?_of_square hA hi hj, at?_of_square hB hi hj, hset]
      · intro a b _ _
        by_cases hai : a = i
        · by_cases hbj : b = j
          · simp [hai, hbj]
          · have : (b < j + 1) = (b < j) := by
              apply propext
              omega
            simp [hai, hbj, this]
        · simp [hai])
  exact ⟨C1, hrun, hinv.congr (fun a b _ hb => by simp [hb])⟩

theorem add32_holds {N : Nat} {A B : Matrix} (hA : IsSquare N A) (hB : IsSquare N B) :
    ∃ C, add32 A B = some C ∧
      Holds N C (fun a b => wrap32 (A.entry a b + B.entry a b)) := by
  have hlen : A.length = N := hA.1
  unfold add32
  simp only [hlen]
  obtain ⟨C, hrun, hC⟩ := foldlM_range_inv
    (fun (D : Matrix) i => (List.range N).foldlM (fun D j => do
        let a ← A.at? i j
        let b ← B.at? i j
        D.setCell i j (wrap32 (a + b))) D)
    (fun i D => Holds N D
      (fun a b => if a < i then wrap32 (A.entry a b + B.entry a b) else 0))
    N (zeros N) ((zeros_holds N).congr (fun a b _ _ => by simp)) (by
      intro i D hi hD
      obtain ⟨D1, hrun, hD1⟩ := add32_loop_j hA hB hD hi
      refine ⟨D1, hrun, hD1.congr ?_⟩
      intro a b _ _
      by_cases hai : a = i
      · simp [hai]
      · have : (a < i + 1) = (a < i) := by
          apply propext
          omega
        simp [hai, this])
  exact ⟨C, hrun, hC.congr (fun a b ha _ => by simp [ha])⟩

theorem diagStep32_eq {N : Nat} {M : Matrix} (hM : IsSquare N M) (acc : Int × Int)
    {i : Nat} (hi : i < N) :
    diagStep32 M N acc i
      = some (wrap32 (acc.1 + M.entry i i), wrap32 (acc.2 + M.entry i (N - 1 - i))) := by
  have hcol : ((N : Int) - 1 - (i : Int)) = ((N - 1 - i : Nat) : Int) := by omega
  have hlt : N - 1 - i < N := by omega
  simp [diagStep32, hcol, idx?_of_nat, at?_of_square hM hi hi, at?_of_square hM hi hlt]

theorem diagonalSums32_sums {N : Nat} {M : Matrix} (hM : IsSquare N M) :
    diagonalSums32 M =
      some (wrap32 (((List.range N).map (fun i => M.entry i i)).sum),
            wrap32 (((List.range N).map (fun i => M.entry i (N - 1 - i))).sum)) := by
  have hlen : M.length = N := hM.1
  obtain ⟨acc, hrun, hacc⟩ := foldlM_range_inv (diagStep32 M N)
    (fun n acc => acc = (wrap32 (((List.range n).map (fun i => M.entry i i)).sum),
      wrap32 (((List.range n).map (fun i => M.entry i (N - 1 - i))).sum)))
    N (0, 0) (by simp [wrap32_zero]) (by
      intro i acc hi hacc
      refine ⟨_, diagStep32_eq hM acc hi, ?_⟩
      rw [hacc]
      simp [List.range_succ, wrap32_add_left])
  unfold diagonalSums32
  rw [hlen, hrun, hacc]

theorem dot32_eq (A B : Matrix) (n i j : Nat) :
    dot32 A B n i j = wrap32 (dotUpTo A B n i j) := by
  induction n with
  | zero => simp [dot32, dotUpTo, wrap32_zero]
  | succ m ih =>
    have hstep : dot32 A B (m + 1) i j
        = wrap32 (dot32 A B m i j + wrap32 (A.entry i m * B.entry m j)) := by
      simp [dot32, List.range_succ]
    rw [hstep, ih, dotUpTo_succ, wrap32_add_wrap]

theorem multiplyDirect32_holds (N : Nat) (A B : Matrix) :
    Holds N (multiplyDirect32 N A B) (fun a b => wrap32 (dotUpTo A B N a b)) := by
  refine ⟨⟨by simp [multiplyDirect32], ?_⟩, ?_⟩
  · intro row hrow
    simp only [multiplyDirect32, List.mem_map] at hrow
    obtain ⟨i, _, rfl⟩ := hrow
    simp
  · intro a b ha hb
    simp [Matrix.at?, multiplyDirect32, List.getElem?_map, List.getElem?_range, ha, hb,
      dot32_eq]

/-! ## The arithmetic operations in 32-bit `int` arithmetic -/

/-- C1, as stated, fails: on the `1 x 1` matrices `[[65536]]` and `[[65536]]`, whose
cells are values of `int`, no matrix returned by `multiply` has the exact sum of
products `65536 * 65536` in its cell: the product wraps to `0`. -/
theorem multiply_entries_counterexample :
    IsSquare 1 [[65536]] ∧ IsInt32Matrix [[65536]] ∧
    multiply32 [[65536]] [[65536]] = some [[0]] ∧
    ¬ ∃ C, multiply32 [[65536]] [[65536]] = some C ∧
      ∀ i j, i < 1 → j < 1 →
        C.at? i j = some (((List.range 1).map
          (fun k => Matrix.entry [[65536]] i k * Matrix.entry [[65536]] k j)).sum) := by
  refine ⟨by decide, by decide, by decide, ?_⟩
  rintro ⟨C, hC, hcell⟩
  have hrun : multiply32 [[65536]] [[65536]] = some [[0]] := by decide
  rw [hrun] at hC
  cases hC
  have h := hcell 0 0 (by decide) (by decide)
  revert h
  decide

/-- C1, amended: for `N x N` matrices `A` and `B`, `multiply` in 32-bit `int`
arithmetic returns an `N x N` matrix whose cell `(i, j)` is the sum over `k` in
`[0, N)` of `A[i][k] * B[k][j]` reduced modulo `2^32` into `[-2^31, 2^31)`, hence the
sum itself whenever the sum is a value of `int`; the matrix built by the loops `i`,
`k`, `j` from the zero matrix is the matrix obtained by computing each cell's sum
directly, and is the exact product matrix when every cell's sum is a value of `int`. -/
theorem multiply32_entries (N : Nat) (A B : Matrix) (hA : IsSquare N A) (hB : IsSquare N B) :
    ∃ C, multiply32 A B = some C ∧ IsSquare N C ∧
      (∀ i j, i < N → j < N →
        C.at? i j
          = some (wrap32 (((List.range N).map (fun k => A.entry i k * B.entry k j)).sum))) ∧
      (∀ i j, i < N → j < N →
        InInt32 (((List.range N).map (fun k => A.entry i k * B.entry k j)).sum) →
        C.at? i j = some (((List.range N).map (fun k => A.entry i k * B.entry k j)).sum)) ∧
      C = multiplyDirect32 N A B ∧
      ((∀ i j, i < N → j < N →
          InInt32 (((List.range N).map (fun k => A.entry i k * B.entry k j)).sum)) →
        C = multiplyDirect N A B) := by
  obtain ⟨C, hrun, hC⟩ := multiply32_holds hA hB
  refine ⟨C, hrun, hC.1, hC.2, ?_, hC.unique (multiplyDirect32_holds N A B), ?_⟩
  · intro i j hi hj hin
    rw [hC.2 i j hi hj]
    exact congrArg some (wrap32_of_inInt32 hin)
  · intro hall
    apply hC.unique
    apply (multiplyDirect_holds N A B).congr
    intro a b ha hb
    exact (wrap32_of_inInt32 (hall a b ha hb)).symm

/-- C1, the example of the specification: `[[1,2],[3,4]]` times `[[5,6],[7,8]]` is
`[[19,22],[43,50]]`. -/
theorem multiply32_entries_witness :
    multiply32 [[1, 2], [3, 4]] [[5, 6], [7, 8]] = some [[19, 22], [43, 50]] ∧
    ∃ C, multiply32 [[1, 2], [3, 4]] [[5, 6], [7, 8]] = some C ∧ IsSquare 2 C ∧
      (∀ i j, i < 2 → j < 2 →
        C.at? i j = some (wrap32 (((List.range 2).map (fun k =>
          Matrix.entry [[1, 2], [3, 4]] i k * Matrix.entry [[5, 6], [7, 8]] k j)).sum))) ∧
      (∀ i j, i < 2 → j < 2 →
        InInt32 (((List.range 2).map (fun k =>
          Matrix.entry [[1, 2], [3, 4]] i k * Matrix.entry [[5, 6], [7, 8]] k j)).sum) →
        C.at? i j = some (((List.range 2).map (fun k =>
          Matrix.entry [[1, 2], [3, 4]] i k * Matrix.entry [[5, 6], [7, 8]] k j)).sum)) ∧
      C = multiplyDirect32 2 [[1, 2], [3, 4]] [[5, 6], [7, 8]] ∧
      ((∀ i j, i < 2 → j < 2 →
          InInt32 (((List.range 2).map (fun k =>
            Matrix.entry [[1, 2], [3, 4]] i k * Matrix.entry [[5, 6], [7, 8]] k j)).sum)) →
        C = multiplyDirect 2 [[1, 2], [3, 4]] [[5, 6], [7, 8]]) :=
  ⟨by decide, multiply32_entries 2 [[1, 2], [3, 4]] [[5, 6], [7, 8]] (by decide) (by decide)⟩

/-- C2, as stated, fails: on the `1 x 1` matrices `[[2147483647]]` and `[[1]]`, whose
cells are values of `int`, no matrix returned by `add` has `A[0][0] + B[0][0]` in its
cell: the sum wraps to `-2147483648`. -/
theorem add_entries_counterexample :
    IsSquare 1 [[2147483647]] ∧ IsSquare 1 [[1]] ∧
    IsInt32Matrix [[2147483647]] ∧ IsInt32Matrix [[1]] ∧
    add32 [[2147483647]] [[1]] = some [[-2147483648]] ∧
    ¬ ∃ C, add32 [[2147483647]] [[1]] = some C ∧
      ∀ i j, i < 1 → j < 1 →
        ∃ a b, Matrix.at? [[2147483647]] i j = some a ∧ Matrix.at? [[1]] i j = some b ∧
          C.at? i j = some (a + b) := by
  refine ⟨by decide, by decide, by decide, by decide, by decide, ?_⟩
  rintro ⟨C, hC, hcell⟩
  have hrun : add32 [[2147483647]] [[1]] = some [[-2147483648]] := by decide
  rw [hrun] at hC
  cases hC
  obtain ⟨a, b, ha, hb, hab⟩ := hcell 0 0 (by decide) (by decide)
  have ha2 : Matrix.at? [[2147483647]] 0 0 = some 2147483647 := by decide
  have hb2 : Matrix.at? [[1]] 0 0 = some 1 := by decide
  rw [ha2] at ha
  rw [hb2] at hb
  cases ha
  cases hb
  revert hab
  decide

/-- C2, amended: for `N x N` matrices `A` and `B`, `add` in 32-bit `int` arithmetic
returns an `N x N` matrix whose cell `(i, j)` is `A[i][j] + B[i][j]` reduced modulo
`2^32` into `[-2^31, 2^31)`, hence `A[i][j] + B[i][j]` itself whenever that sum is a
value of `int`. -/
theorem add32_entries (N : Nat) (A B : Matrix) (hA : IsSquare N A) (hB : IsSquare N B) :
    ∃ C, add32 A B = some C ∧ IsSquare N C ∧
      ∀ i j, i < N → j < N →
        ∃ a b, A.at? i j = some a ∧ B.at? i j = some b ∧
          C.at? i j = some (wrap32 (a + b)) ∧
          (InInt32 (a + b) → C.at? i j = some (a + b)) := by
  obtain ⟨C, hrun, hC⟩ := add32_holds hA hB
  refine ⟨C, hrun, hC.1, fun i j hi hj =>
    ⟨A.entry i j, B.entry i j, at?_of_square hA hi hj, at?_of_square hB hi hj,
      hC.2 i j hi hj, ?_⟩⟩
  intro hin
  rw [hC.2 i j hi hj]
  exact congrArg some (wrap32_of_inInt32 hin)

/-- C2, the example of the specification: `[[1,2],[3,4]]` plus `[[5,6],[7,8]]` is
`[[6,8],[10,12]]`. -/
theorem add32_entries_witness :
    add32 [[1, 2], [3, 4]] [[5, 6], [7, 8]] = some [[6, 8], [10, 12]] ∧
    ∃ C, add32 [[1, 2], [3, 4]] [[5, 6], [7, 8]] = some C ∧ IsSquare 2 C ∧
      ∀ i j, i < 2 → j < 2 →
        ∃ a b, Matrix.at? [[1, 2], [3, 4]] i j = some a ∧
          Matrix.at? [[5, 6], [7, 8]] i j = some b ∧
          C.at? i j = some (wrap32 (a + b)) ∧
          (InInt32 (a + b) → C.at? i j = some (a + b)) :=
  ⟨by decide, add32_entries 2 [[1, 2], [3, 4]] [[5, 6], [7, 8]] (by decide) (by decide)⟩

/-- C3, as stated, fails: on `[[2147483647, -2147483648], [-1, 1]]`, whose cells are
values of `int`, `diagonalSums` returns `(-2147483648, 2147483647)` while the sums of
the two diagonals are `2147483648` and `-2147483649`. -/
theorem diagonalSums_eq_counterexample :
    IsSquare 2 [[2147483647, -2147483648], [-1, 1]] ∧
    IsInt32Matrix [[2147483647, -2147483648], [-1, 1]] ∧
    diagonalSums32 [[2147483647, -2147483648], [-1, 1]] = some (-2147483648, 2147483647) ∧
    diagonalSums32 [[2147483647, -2147483648], [-1, 1]] ≠
      some (((List.range 2).map
              (fun i => Matrix.entry [[2147483647, -2147483648], [-1, 1]] i i)).sum,
            ((List.range 2).map
              (fun i => Matrix.entry [[2147483647, -2147483648], [-1, 1]] i (2 - 1 - i))).sum) := by
  refine ⟨by decide, by decide, by decide, by decide⟩

/-- C3, amended: for an `N x N` matrix `M`, `diagonalSums` in 32-bit `int` arithmetic
returns the pair of the sum over `i` in `[0, N)` of `M[i][i]` and the sum over `i` in
`[0, N)` of `M[i][N-1-i]`, each reduced modulo `2^32` into `[-2^31, 2^31)`, hence the
two sums themselves whenever both are values of `int`. -/
theorem diagonalSums32_eq (N : Nat) (M : Matrix) (hM : IsSquare N M) :
    diagonalSums32 M =
      some (wrap32 (((List.range N).map (fun i => M.entry i i)).sum),
            wrap32 (((List.range N).map (fun i => M.entry i (N - 1 - i))).sum)) ∧
    (InInt32 (((List.range N).map (fun i => M.entry i i)).sum) →
      InInt32 (((List.range N).map (fun i => M.entry i (N - 1 - i))).sum) →
      diagonalSums32 M =
        some (((List.range N).map (fun i => M.entry i i)).sum,
              ((List.range N).map (fun i => M.entry i (N - 1 - i))).sum)) := by
  refine ⟨diagonalSums32_sums hM, ?_⟩
  intro h1 h2
  rw [diagonalSums32_sums hM, wrap32_of_inInt32 h1, wrap32_of_inInt32 h2]

/-- C3, the examples of the specification: `[[1,2],[3,4]]` gives `(5, 5)` and
`[[1,2,3],[4,5,6],[7,8,9]]` gives `(15, 15)`. -/
theorem diagonalSums32_eq_witness :
    diagonalSums32 [[1, 2], [3, 4]] = some (5, 5) ∧
    diagonalSums32 [[1, 2, 3], [4, 5, 6], [7, 8, 9]] = some (15, 15) ∧
    (diagonalSums32 [[1, 2, 3], [4, 5, 6], [7, 8, 9]] =
      some (wrap32 (((List.range 3).map
              (fun i => Matrix.entry [[1, 2, 3], [4, 5, 6], [7, 8, 9]] i i)).sum),
            wrap32 (((List.range 3).map
              (fun i => Matrix.entry [[1, 2, 3], [4, 5, 6], [7, 8, 9]] i (3 - 1 - i))).sum)) ∧
    (InInt32 (((List.range 3).map
        (fun i => Matrix.entry [[1, 2, 3], [4, 5, 6], [7, 8, 9]] i i)).sum) →
      InInt32 (((List.range 3).map
        (fun i => Matrix.entry [[1, 2, 3], [4, 5, 6], [7, 8, 9]] i (3 - 1 - i))).sum) →
      diagonalSums32 [[1, 2, 3], [4, 5, 6], [7, 8, 9]] =
        some (((List.range 3).map
                (fun i => Matrix.entry [[1, 2, 3], [4, 5, 6], [7, 8, 9]] i i)).sum,
              ((List.range 3).map
                (fun i => Matrix.entry [[1, 2, 3], [4, 5, 6], [7, 8, 9]] i (3 - 1 - i))).sum))) :=
  ⟨by decide, by decide,
    diagonalSums32_eq 3 [[1, 2, 3], [4, 5, 6], [7, 8, 9]] (by decide)⟩

theorem wrap32_sub_add (t x v : Int) : wrap32 (wrap32 t - x + v) = wrap32 (t - x + v) := by
  unfold wrap32
  omega

theorem centre_sums {N : Nat} {M M1 : Matrix} (hodd : N % 2 = 1) (v : Int)
    (hM1 : Holds N M1
      (fun a b => if a = (N - 1) / 2 ∧ b = (N - 1) / 2 then v else M.entry a b)) :
    ((List.range N).map (fun i => M1.entry i i)).sum
      = ((List.range N).map (fun i => M.entry i i)).sum
        - M.entry ((N - 1) / 2) ((N - 1) / 2) + v ∧
    ((List.range N).map (fun i => M1.entry i (N - 1 - i))).sum
      = ((List.range N).map (fun i => M.entry i (N - 1 - i))).sum
        - M.entry ((N - 1) / 2) ((N - 1) / 2) + v := by
  have hc : (N - 1) / 2 < N := by omega
  constructor
  · rw [sum_range_congr (g := fun i => if i = (N - 1) / 2 then v else M.entry i i)
      (fun i hi => by
        rw [hM1.entry_eq hi hi]
        by_cases h : i = (N - 1) / 2
        · simp [h]
        · simp [h]),
      sum_range_replace (fun i => M.entry i i)]
    simp only [hc, if_true]
    ring
  · rw [sum_range_congr (g := fun i => if i = (N - 1) / 2 then v else M.entry i (N - 1 - i))
      (fun i hi => by
        rw [hM1.entry_eq hi (show N - 1 - i < N by omega)]
        by_cases h : i = (N - 1) / 2
        · have h2 : N - 1 - i = (N - 1) / 2 := by omega
          rw [h2, if_pos ⟨h, rfl⟩]
          exact (if_pos h).symm
        · simp [h]),
      sum_range_replace (fun i => M.entry i (N - 1 - i))]
    have h3 : N - 1 - (N - 1) / 2 = (N - 1) / 2 := by omega
    simp only [hc, if_true, h3]
    ring

theorem dotUpTo_add_right32 {N : Nat} {B C S : Matrix} (A : Matrix)
    (hS : Holds N S (fun a b => wrap32 (B.entry a b + C.entry a b))) (a : Nat) {b : Nat}
    (hb : b < N) :
    Int.ModEq 4294967296 (dotUpTo A S N a b) (dotUpTo A B N a b + dotUpTo A C N a b) := by
  rw [dotUpTo_eq_finset, dotUpTo_eq_finset, dotUpTo_eq_finset, ← Finset.sum_add_distrib]
  apply modEq_sum_range
  intro k hk
  rw [hS.entry_eq hk hb, ← mul_add]
  exact Int.ModEq.mul_left _ (wrap32_emod _)

theorem dotUpTo_add_left32 {N : Nat} {A B S : Matrix} (C : Matrix)
    (hS : Holds N S (fun a b => wrap32 (A.entry a b + B.entry a b))) {a : Nat} (ha : a < N)
    (b : Nat) :
    Int.ModEq 4294967296 (dotUpTo S C N a b) (dotUpTo A C N a b + dotUpTo B C N a b) := by
  rw [dotUpTo_eq_finset, dotUpTo_eq_finset, dotUpTo_eq_finset, ← Finset.sum_add_distrib]
  apply modEq_sum_range
  intro k hk
  rw [hS.entry_eq ha hk, ← add_mul]
  exact Int.ModEq.mul_right _ (wrap32_emod _)

/-- C11: for `N x N` matrices `A` and `B`, `add A B` and `add B A`, in 32-bit `int`
arithmetic, return the same matrix. -/
theorem add32_commutative (N : Nat) (A B : Matrix) (hA : IsSquare N A) (hB : IsSquare N B) :
    ∃ C, add32 A B = some C ∧ add32 B A = some C := by
  obtain ⟨C, hC, hCh⟩ := add32_holds hA hB
  obtain ⟨D, hD, hDh⟩ := add32_holds hB hA
  have hCD : C = D :=
    hCh.unique (hDh.congr (fun a b _ _ => by rw [add_comm]))
  subst hCD
  exact ⟨C, hC, hD⟩

/-- C11 at concrete inputs: `[[1,2],[3,4]]` and `[[5,6],[7,8]]` added in either order
give `[[6,8],[10,12]]`, and `[[2147483647]]` and `[[1]]`, whose sum wraps, give
`[[-2147483648]]` in either order. -/
theorem add32_commutative_witness :
    add32 [[5, 6], [7, 8]] [[1, 2], [3, 4]] = some [[6, 8], [10, 12]] ∧
    add32 [[2147483647]] [[1]] = some [[-2147483648]] ∧
    add32 [[1]] [[2147483647]] = some [[-2147483648]] ∧
    ∃ C, add32 [[1, 2], [3, 4]] [[5, 6], [7, 8]] = some C ∧
      add32 [[5, 6], [7, 8]] [[1, 2], [3, 4]] = some C :=
  ⟨by decide, by decide, by decide,
    add32_commutative 2 [[1, 2], [3, 4]] [[5, 6], [7, 8]] (by decide) (by decide)⟩

/-- C12, as stated, fails: on `[[2147483647,0,0],[0,0,0],[0,0,0]]`, whose cells are
values of `int`, with `c = (3-1)/2 = 1` and `v = 1`, the main sum is
`m = 2147483647` and after `updateCell M 1 1 1` the main sum returned is
`-2147483648`, not `m - M[1][1] + 1 = 2147483648`. -/
theorem diagonalSums_centre_counterexample :
    IsSquare 3 [[2147483647, 0, 0], [0, 0, 0], [0, 0, 0]] ∧
    IsInt32Matrix [[2147483647, 0, 0], [0, 0, 0], [0, 0, 0]] ∧
    diagonalSums32 [[2147483647, 0, 0], [0, 0, 0], [0, 0, 0]] = some (2147483647, 0) ∧
    diagonalSums32 [[2147483647, 0, 0], [0, 1, 0], [0, 0, 0]] = some (-2147483648, 1) ∧
    ¬ ∃ m s x M1,
      diagonalSums32 [[2147483647, 0, 0], [0, 0, 0], [0, 0, 0]] = some (m, s) ∧
      Matrix.at? [[2147483647, 0, 0], [0, 0, 0], [0, 0, 0]] 1 1 = some x ∧
      updateCell [[2147483647, 0, 0], [0, 0, 0], [0, 0, 0]] 1 1 1 = some (true, M1) ∧
      diagonalSums32 M1 = some (m - x + 1, s - x + 1) := by
  refine ⟨by decide, by decide, by decide, by decide, ?_⟩
  rintro ⟨m, s, x, M1, hms, hx, hupd, hres⟩
  have h1 : diagonalSums32 [[2147483647, 0, 0], [0, 0, 0], [0, 0, 0]]
      = some (2147483647, 0) := by decide
  have h2 : Matrix.at? [[2147483647, 0, 0], [0, 0, 0], [0, 0, 0]] 1 1 = some 0 := by decide
  have h3 : updateCell [[2147483647, 0, 0], [0, 0, 0], [0, 0, 0]] 1 1 1
      = some (true, [[2147483647, 0, 0], [0, 1, 0], [0, 0, 0]]) := by decide
  rw [h1] at hms
  rw [h2] at hx
  rw [h3] at hupd
  cases hms
  cases hx
  cases hupd
  revert hres
  decide

/-- C12, amended: for odd `N`, an `N x N` matrix `M` and `c = (N-1)/2`, if
`diagonalSums M` is `(m, s)` in 32-bit `int` arithmetic, then for every `v` the matrix
obtained by `updateCell M c c v` has diagonal sums `m - M[c][c] + v` and
`s - M[c][c] + v`, each reduced modulo `2^32` into `[-2^31, 2^31)`, hence these two
values themselves whenever both are values of `int`: the centre cell counts once in
each sum. -/
theorem diagonalSums32_centre (N : Nat) (M : Matrix) (hM : IsSquare N M) (hodd : N % 2 = 1)
    (v : Int) :
    ∃ m s x M1, diagonalSums32 M = some (m, s) ∧
      M.at? ((N - 1) / 2) ((N - 1) / 2) = some x ∧
      updateCell M (((N - 1) / 2 : Nat) : Int) (((N - 1) / 2 : Nat) : Int) v = some (true, M1) ∧
      diagonalSums32 M1 = some (wrap32 (m - x + v), wrap32 (s - x + v)) ∧
      (InInt32 (m - x + v) → InInt32 (s - x + v) →
        diagonalSums32 M1 = some (m - x + v, s - x + v)) := by
  have hc : (N - 1) / 2 < N := by omega
  obtain ⟨M1, hrun, hM1⟩ := updateCell_holds hM ((N - 1) / 2) ((N - 1) / 2) v hc hc
  obtain ⟨hmain, hsec⟩ := centre_sums hodd v hM1
  have hres : diagonalSums32 M1
      = some (wrap32 (wrap32 (((List.range N).map (fun i => M.entry i i)).sum)
                - M.entry ((N - 1) / 2) ((N - 1) / 2) + v),
              wrap32 (wrap32 (((List.range N).map (fun i => M.entry i (N - 1 - i))).sum)
                - M.entry ((N - 1) / 2) ((N - 1) / 2) + v)) := by
    rw [diagonalSums32_sums hM1.1, hmain, hsec, wrap32_sub_add, wrap32_sub_add]
  refine ⟨_, _, M.entry ((N - 1) / 2) ((N - 1) / 2), M1, diagonalSums32_sums hM,
    at?_of_square hM hc hc, hrun, hres, ?_⟩
  intro h1 h2
  rw [hres, wrap32_of_inInt32 h1, wrap32_of_inInt32 h2]

/-- C12, the example of the specification: `[[1,2,3],[4,5,6],[7,8,9]]` has sums
`(15, 15)` with the centre `5` in both; with the centre set to `0` both are `10`. -/
theorem diagonalSums32_centre_witness :
    diagonalSums32 [[1, 2, 3], [4, 5, 6], [7, 8, 9]] = some (15, 15) ∧
    Matrix.at? [[1, 2, 3], [4, 5, 6], [7, 8, 9]] 1 1 = some 5 ∧
    diagonalSums32 [[1, 2, 3], [4, 0, 6], [7, 8, 9]] = some (10, 10) ∧
    ∃ m s x M1, diagonalSums32 [[1, 2, 3], [4, 5, 6], [7, 8, 9]] = some (m, s) ∧
      Matrix.at? [[1, 2, 3], [4, 5, 6], [7, 8, 9]] ((3 - 1) / 2) ((3 - 1) / 2) = some x ∧
      updateCell [[1, 2, 3], [4, 5, 6], [7, 8, 9]] (((3 - 1) / 2 : Nat) : Int)
        (((3 - 1) / 2 : Nat) : Int) 0 = some (true, M1) ∧
      diagonalSums32 M1 = some (wrap32 (m - x + 0), wrap32 (s - x + 0)) ∧
      (InInt32 (m - x + 0) → InInt32 (s - x + 0) →
        diagonalSums32 M1 = some (m - x + 0, s - x + 0)) :=
  ⟨by decide, by decide, by decide,
    diagonalSums32_centre 3 [[1, 2, 3], [4, 5, 6], [7, 8, 9]] (by decide) (by decide) 0⟩

/-- C20: for `N x N` matrices `A`, `B`, `C`, in 32-bit `int` arithmetic,
`multiply A (add B C)` returns the matrix that `add (multiply A B) (multiply A C)`
returns, and `multiply (add A B) C` returns the matrix that
`add (multiply A C) (multiply B C)` returns. -/
theorem multiply32_distributes (N : Nat) (A B C : Matrix) (hA : IsSquare N A)
    (hB : IsSquare N B) (hC : IsSquare N C) :
    (∃ S P Q R, add32 B C = some S ∧ multiply32 A B = some P ∧ multiply32 A C = some Q ∧
      multiply32 A S = some R ∧ add32 P Q = some R) ∧
    (∃ S P Q R, add32 A B = some S ∧ multiply32 A C = some P ∧ multiply32 B C = some Q ∧
      multiply32 S C = some R ∧ add32 P Q = some R) := by
  constructor
  · obtain ⟨S, hS, hSh⟩ := add32_holds hB hC
    obtain ⟨P, hP, hPh⟩ := multiply32_holds hA hB
    obtain ⟨Q, hQ, hQh⟩ := multiply32_holds hA hC
    obtain ⟨R, hR, hRh⟩ := multiply32_holds hA hSh.1
    obtain ⟨T, hT, hTh⟩ := add32_holds hPh.1 hQh.1
    have hEq : T = R := by
      apply hTh.unique
      apply hRh.congr
      intro a b ha hb
      rw [hPh.entry_eq ha hb, hQh.entry_eq ha hb, wrap32_add_wrap]
      exact wrap32_congr (dotUpTo_add_right32 A hSh a hb)
    exact ⟨S, P, Q, R, hS, hP, hQ, hR, by rw [hT, hEq]⟩
  · obtain ⟨S, hS, hSh⟩ := add32_holds hA hB
    obtain ⟨P, hP, hPh⟩ := multiply32_holds hA hC
    obtain ⟨Q, hQ, hQh⟩ := multiply32_holds hB hC
    obtain ⟨R, hR, hRh⟩ := multiply32_holds hSh.1 hC
    obtain ⟨T, hT, hTh⟩ := add32_holds hPh.1 hQh.1
    have hEq : T = R := by
      apply hTh.unique
      apply hRh.congr
      intro a b ha hb
      rw [hPh.entry_eq ha hb, hQh.entry_eq ha hb, wrap32_add_wrap]
      exact wrap32_congr (dotUpTo_add_left32 C hSh ha b)
    exact ⟨S, P, Q, R, hS, hP, hQ, hR, by rw [hT, hEq]⟩

/-- C20 at concrete inputs: `A = [[1,2],[3,4]]`, `B = [[5,6],[7,8]]`,
`C = [[1,0],[2,1]]`, where `A (B + C)` is `[[24,24],[54,54]]`; and the `1 x 1`
matrices `[[65536]]`, `[[65535]]`, `[[1]]`, where `B + C` is `[[65536]]` and both
sides wrap to `[[0]]`. -/
theorem multiply32_distributes_witness :
    add32 [[5, 6], [7, 8]] [[1, 0], [2, 1]] = some [[6, 6], [9, 9]] ∧
    multiply32 [[1, 2], [3, 4]] [[6, 6], [9, 9]] = some [[24, 24], [54, 54]] ∧
    multiply32 [[65536]] [[65536]] = some [[0]] ∧
    multiply32 [[65536]] [[65535]] = some [[-65536]] ∧
    multiply32 [[65536]] [[1]] = some [[65536]] ∧
    add32 [[-65536]] [[65536]] = some [[0]] ∧
    ((∃ S P Q R, add32 [[5, 6], [7, 8]] [[1, 0], [2, 1]] = some S ∧
      multiply32 [[1, 2], [3, 4]] [[5, 6], [7, 8]] = some P ∧
      multiply32 [[1, 2], [3, 4]] [[1, 0], [2, 1]] = some Q ∧
      multiply32 [[1, 2], [3, 4]] S = some R ∧ add32 P Q = some R) ∧
    (∃ S P Q R, add32 [[1, 2], [3, 4]] [[5, 6], [7, 8]] = some S ∧
      multiply32 [[1, 2], [3, 4]] [[1, 0], [2, 1]] = some P ∧
      multiply32 [[5, 6], [7, 8]] [[1, 0], [2, 1]] = some Q ∧
      multiply32 S [[1, 0], [2, 1]] = some R ∧ add32 P Q = some R)) :=
  ⟨by decide, by decide, by decide, by decide, by decide, by decide,
    multiply32_distributes 2 [[1, 2], [3, 4]] [[5, 6], [7, 8]] [[1, 0], [2, 1]]
      (by decide) (by decide) (by decide)⟩

end Lab9
